import Mathlib

/-!
# sort-my-packages: pack distribution solver and pack-size registry

A shallow embedding of `internal/handlers/calculatePacks.go`.

Conventions of the embedding.

* Go `int` is the 64-bit two's-complement integer.  Values are carried as `Int`;
  `wrapInt` is applied at the three additions of `getOptimalPackDistribution`
  whose result can leave the 64-bit range (`quantity + minPackSize`,
  `maxTotalQuantity + 1`, `i + packSize`).  Every other arithmetic result of the
  two solvers stays inside the range for every 64-bit input (table entries lie
  in `[0, MaxInt32]`, `i - quantity` has `0 ≤ quantity ≤ i`, the greedy
  remainder only shrinks towards zero), with the single exception of the
  quotient `MinInt64 / -1`, which `goDiv` treats as the language defines it.
* A run-time panic (index out of range, `makeslice: len out of range`, integer
  division by zero) is the outer `none` of a result.
* A Go `map[int]int` is an association list with pairwise different keys, in
  insertion order; `mapGet`, `mapSet`, `mapIncr` are `m[k]`, `m[k] = v`,
  `m[k]++`.  The `nil` map of the NoSolution return is the inner `none`.
* The package variable `PackSizes` is the registry state, threaded explicitly
  through the two handlers.
-/

namespace SortMyPackages

/-! ## Constants and machine integers -/

/-- The constant `math.MaxInt32`. -/
def MaxInt32 : Int := 2147483647

/-- The package variable `MaxDPQuantity`. -/
def MaxDPQuantity : Int := 100000

/-- The package variable `AuthToken`. -/
def AuthToken : String := "my_secret_token"

/-- The package variable `AllowedOrigin`. -/
def AllowedOrigin : String := "http://localhost:8080"

/-- The initial value of the package variable `PackSizes`. -/
def defaultPackSizes : List Int := [250, 500, 1000, 2000, 5000]

/-- Two's-complement wrap-around of a 64-bit signed result. -/
def wrapInt (x : Int) : Int :=
  (x + 9223372036854775808) % 18446744073709551616 - 9223372036854775808

/-- Go integer division `a / b`: panics on a zero divisor, truncates towards
zero, and `MinInt64 / -1` is `MinInt64`. -/
def goDiv (a b : Int) : Option Int :=
  if b = 0 then none
  else if a = -9223372036854775808 ∧ b = -1 then some a
  else some (Int.tdiv a b)

/-- Slice read `l[i]` with a Go `int` index: `none` is the index-out-of-range panic. -/
def readAt {α : Type} (l : List α) (i : Int) : Option α :=
  if i < 0 then none else l[i.toNat]?

/-! ## Maps -/

/-- A Go `map[int]int` as an association list (key, value). -/
abbrev GoMap := List (Int × Int)

/-- Map read `m[k]`: the zero value when the key is absent. -/
def mapGet : GoMap → Int → Int
  | [], _ => 0
  | (k', v') :: rest, k => if k = k' then v' else mapGet rest k

/-- Map write `m[k] = v`: overwrites the entry of `k` or adds one. -/
def mapSet : GoMap → Int → Int → GoMap
  | [], k, v => [(k, v)]
  | (k', v') :: rest, k, v => if k = k' then (k, v) :: rest else (k', v') :: mapSet rest k v

/-- Map increment `m[k]++`. -/
def mapIncr (m : GoMap) (k : Int) : GoMap := mapSet m k (mapGet m k + 1)

/-- `copyMap`: a fresh map receiving every entry of the original. -/
def copyMap (original : GoMap) : GoMap :=
  original.foldl (fun copy kv => mapSet copy kv.1 kv.2) []

/-- `maxPackSize`: the largest key of a distribution, `0` for the empty one. -/
def maxPackSize (distribution : GoMap) : Int :=
  distribution.foldl (fun maxSize kv => if kv.1 > maxSize then kv.1 else maxSize) 0

/-- Derived value `achievedQuantity = Σ size·count` of a distribution. -/
def achieved (d : GoMap) : Int := (d.map (fun kv => kv.1 * kv.2)).sum

/-- Derived value `totalPacks = Σ count` of a distribution. -/
def countSum (d : GoMap) : Int := (d.map (fun kv => kv.2)).sum

/-! ## Sorting helpers -/

/-- `sort.Ints`: the ascending rearrangement of the slice. -/
def sortInts (packs : List Int) : List Int := packs.insertionSort (· ≤ ·)

/-- `reverseSort`: a descending sorted copy. -/
def reverseSort (packs : List Int) : List Int := packs.insertionSort (· ≥ ·)

/-- The key set built by the first loop of `uniqueAndSorted`
(`sizeMap[size] = true`), as the list of its keys. -/
def sizeKeys (sizes : List Int) : List Int :=
  sizes.foldl (fun keys size => if size ∈ keys then keys else keys ++ [size]) []

/-- `uniqueAndSorted`: the keys of the set, sorted descending. -/
def uniqueAndSorted (sizes : List Int) : List Int :=
  (sizeKeys sizes).insertionSort (· ≥ ·)

/-! ## The exact solver -/

/-- The two tables `dp` and `packDistribution`. -/
abbrev Tables := List Int × List GoMap

/-- Body of the inner loop of the table construction, for table index `i` and
one `packSize`. -/
def dpInner (maxTotalQuantity i : Int) (t : Tables) (packSize : Int) : Option Tables :=
  let newQuantity := wrapInt (i + packSize)
  if newQuantity ≤ maxTotalQuantity then
    match readAt t.1 i, readAt t.1 newQuantity with
    | some di, some dn =>
      if di + 1 < dn then
        match readAt t.2 i with
        | some pdi =>
          some (t.1.set newQuantity.toNat (di + 1),
                t.2.set newQuantity.toNat (mapIncr (copyMap pdi) packSize))
        | none => none
      else some t
    | _, _ => none
  else some t

/-- Body of the outer loop of the table construction at index `i`. -/
def dpOuter (packs : List Int) (maxTotalQuantity : Int) (t : Tables) (i : Nat) : Option Tables :=
  match readAt t.1 (i : Int) with
  | none => none
  | some di =>
    if di ≠ MaxInt32 then packs.foldlM (dpInner maxTotalQuantity (i : Int)) t else some t

/-- The table construction: allocation, initialisation, `dp[0] = 0` and the
double loop.  `packs` is the sorted slice. -/
def buildTables (packs : List Int) (maxTotalQuantity : Int) : Option Tables :=
  let len := wrapInt (maxTotalQuantity + 1)
  if len < 0 then none
  else
    let dp := List.replicate len.toNat MaxInt32
    let packDistribution : List GoMap := List.replicate len.toNat []
    if len = 0 then none
    else (List.range len.toNat).foldlM (dpOuter packs maxTotalQuantity) (dp.set 0 0, packDistribution)

/-- The four running minima of the selection loop. -/
structure SelState where
  minOverpack : Int
  minTotalPacks : Int
  minLargestPackSize : Int
  minDistribution : GoMap
  deriving DecidableEq, Repr

/-- The selection state before the loop. -/
def selInit : SelState := ⟨MaxInt32, MaxInt32, MaxInt32, []⟩

/-- Body of the selection loop at total `i`; `smallOrder` is the outcome of the
test `quantity < 500`. -/
def selStep (smallOrder : Bool) (quantity : Int) (t : Tables) (st : SelState) (i : Int) :
    Option SelState :=
  match readAt t.1 i with
  | none => none
  | some di =>
    if di ≠ MaxInt32 then
      match readAt t.2 i with
      | none => none
      | some pdi =>
        let overpack := i - quantity
        let totalPacks := di
        let largestPack := maxPackSize pdi
        if overpack < st.minOverpack then
          some ⟨overpack, totalPacks, largestPack, pdi⟩
        else if overpack = st.minOverpack then
          if smallOrder then
            if largestPack < st.minLargestPackSize ∨
                (largestPack = st.minLargestPackSize ∧ totalPacks < st.minTotalPacks) then
              some ⟨st.minOverpack, totalPacks, largestPack, pdi⟩
            else some st
          else
            if totalPacks < st.minTotalPacks ∨
                (totalPacks = st.minTotalPacks ∧ largestPack < st.minLargestPackSize) then
              some ⟨st.minOverpack, totalPacks, largestPack, pdi⟩
            else some st
        else some st
    else some st

/-- The totals `quantity, quantity + 1, …, maxTotalQuantity` scanned by the
selection loop. -/
def selRange (quantity maxTotalQuantity : Int) : List Int :=
  (List.range (maxTotalQuantity - quantity + 1).toNat).map (fun (k : Nat) => quantity + (k : Int))

/-- The return statement: NoSolution (`nil, MaxInt32`) when no candidate was
selected, the selected distribution and its count otherwise. -/
def selFinish (st : SelState) : Option GoMap × Int :=
  if st.minTotalPacks = MaxInt32 then (none, MaxInt32)
  else (some st.minDistribution, st.minTotalPacks)

/-- The function `getOptimalPackDistribution` with the outcome of its test
`quantity < 500` as a parameter. -/
def getOptimalPackDistributionWith (smallOrder : Bool) (quantity : Int) (packs : List Int) :
    Option (Option GoMap × Int) :=
  match sortInts packs with
  | [] => none
  | minPackSize :: rest =>
    let maxTotalQuantity := wrapInt (quantity + minPackSize)
    match buildTables (minPackSize :: rest) maxTotalQuantity with
    | none => none
    | some t =>
      match (selRange quantity maxTotalQuantity).foldlM (selStep smallOrder quantity t) selInit with
      | none => none
      | some st => some (selFinish st)

/-- The function `getOptimalPackDistribution`. -/
def getOptimalPackDistribution (quantity : Int) (packs : List Int) :
    Option (Option GoMap × Int) :=
  getOptimalPackDistributionWith (decide (quantity < 500)) quantity packs

/-! ## The greedy fallback -/

/-- Body of the loop of `greedyPackFallback`; the state is the distribution
and `remaining`. -/
def greedyStep (st : GoMap × Int) (packSize : Int) : Option (GoMap × Int) :=
  match goDiv st.2 packSize with
  | none => none
  | some count =>
    if count > 0 then some (mapSet st.1 packSize count, st.2 - packSize * count)
    else some st

/-- The extra pack of the last (smallest) size when something remains. -/
def greedyTopUp (sortedPacks : List Int) (distribution : GoMap) (remaining : Int) : GoMap :=
  match sortedPacks.getLast? with
  | some smallest => if remaining > 0 then mapIncr distribution smallest else distribution
  | none => distribution

/-- The function `greedyPackFallback`. -/
def greedyPackFallback (quantity : Int) (packs : List Int) : Option (Option GoMap × Int) :=
  let sortedPacks := reverseSort packs
  match sortedPacks.foldlM greedyStep ([], quantity) with
  | none => none
  | some (distribution, remaining) =>
    let distribution := greedyTopUp sortedPacks distribution remaining
    let totalPacks := distribution.foldl (fun total kv => total + kv.2) 0
    some (some distribution, totalPacks)

/-! ## The handlers -/

/-- What a handler writes to the client. -/
inductive Response where
  | failure (status : Nat)
  | packs (distribution : Option GoMap) (totalPacks : Int)
  | updated
  | preflight
  | crashed
  deriving DecidableEq, Repr

/-- A request to `/calculate-packs`; `body` is the decoded `Quantity`, `none`
when the decoder reports an error. -/
structure CalcRequest where
  method : String
  contentType : String
  body : Option Int

/-- A request to `/set-pack-sizes`; `body` is the decoded `PackSizes`, `none`
when the decoder reports an error. -/
structure SizesRequest where
  method : String
  contentType : String
  origin : String
  authorization : String
  body : Option (List Int)

/-- The response built from a solver outcome. -/
def respond : Option (Option GoMap × Int) → Response
  | none => Response.crashed
  | some (distribution, totalPacks) => Response.packs distribution totalPacks

/-- The handler `CalculatePacks`: the response and the registry afterwards.
The exact solver sorts the slice it is given in place, and that slice shares
its elements with `PackSizes`. -/
def CalculatePacks (registry : List Int) (r : CalcRequest) : Response × List Int :=
  if r.method ≠ "POST" then (Response.failure 405, registry)
  else if r.contentType ≠ "application/json" then (Response.failure 415, registry)
  else
    match r.body with
    | none => (Response.failure 400, registry)
    | some quantity =>
      if quantity ≤ 0 then (Response.failure 400, registry)
      else if quantity > MaxInt32 then (Response.failure 400, registry)
      else if quantity ≤ MaxDPQuantity then
        (respond (getOptimalPackDistribution quantity registry), sortInts registry)
      else (respond (greedyPackFallback quantity registry), registry)

/-- The handler `SetPackSizes`: the response and the registry afterwards. -/
def SetPackSizes (registry : List Int) (r : SizesRequest) : Response × List Int :=
  if r.method = "OPTIONS" then (Response.preflight, registry)
  else if r.method ≠ "POST" then (Response.failure 405, registry)
  else if r.contentType ≠ "application/json" then (Response.failure 415, registry)
  else if r.origin ≠ AllowedOrigin then (Response.failure 403, registry)
  else if r.authorization ≠ "Bearer " ++ AuthToken then (Response.failure 401, registry)
  else
    match r.body with
    | none => (Response.failure 400, registry)
    | some sizes =>
      if sizes.length = 0 then (Response.failure 400, registry)
      else if sizes.any (fun size => decide (size ≤ 0)) then (Response.failure 400, registry)
      else (Response.updated, uniqueAndSorted sizes)

/-! ## Specification vocabulary -/

/-- The value is a Go `int` (64-bit two's complement). -/
abbrev IsInt64 (x : Int) : Prop := -9223372036854775808 ≤ x ∧ x < 9223372036854775808

/-- Some list of `c` pack sizes taken from `packs` (with repetition) sums to `t`. -/
def Reaches (packs : List Int) (t : Int) (c : Nat) : Prop :=
  ∃ L : List Int, (∀ x ∈ L, x ∈ packs) ∧ L.sum = t ∧ L.length = c

/-- The distribution `d` uses only sizes of `packs`, each at least once, sums to
`t` and holds `c` packs. -/
structure GoodDist (packs : List Int) (d : GoMap) (t c : Int) : Prop where
  nodup : (d.map Prod.fst).Nodup
  entries : ∀ kv ∈ d, kv.1 ∈ packs ∧ 1 ≤ kv.2
  total : achieved d = t
  count : countSum d = c

/-- Invariant of the two tables: `n` entries each, `dp[0] = 0`, and every entry
is either the sentinel or a pack count below it whose distribution realises
the index. -/
structure TableInv (packs : List Int) (n : Nat) (t : Tables) : Prop where
  len1 : t.1.length = n
  len2 : t.2.length = n
  zero : t.1[0]? = some 0
  entry : ∀ (j : Nat) (d : Int), t.1[j]? = some d → d = MaxInt32 ∨
    (0 ≤ d ∧ d < MaxInt32 ∧
      ∃ pdj, t.2[j]? = some pdj ∧ GoodDist packs pdj j d ∧ Reaches packs j d.toNat)

/-- The relaxation property of the table for the indices below `k`: one more
pack from a reached index costs at most one more. -/
def Closed (packs : List Int) (M : Int) (k : Nat) (t : Tables) : Prop :=
  ∀ (j : Nat) (d : Int), j < k → t.1[j]? = some d → d ≠ MaxInt32 →
    ∀ s ∈ packs, (j : Int) + s ≤ M →
      ∃ d', t.1[((j : Int) + s).toNat]? = some d' ∧ d' ≤ d + 1

/-- Entries below or at `i` are the same in both tables `dp`. -/
def SameUpTo (i : Nat) (t t' : Tables) : Prop := ∀ j, j ≤ i → t'.1[j]? = t.1[j]?

/-- Entries of `dp` never grow from `t` to `t'`. -/
def NoGrowth (t t' : Tables) : Prop :=
  ∀ (j : Nat) (d : Int), t.1[j]? = some d → ∃ d', t'.1[j]? = some d' ∧ d' ≤ d

/-- Invariant of the loop of `greedyPackFallback`: the remainder is not
negative, the distribution has pairwise different keys, every entry is a pack
size with a positive count and lies above the remainder, and distribution plus
remainder account for the quantity. -/
structure GreedyInv (packs : List Int) (q : Int) (st : GoMap × Int) : Prop where
  rem0 : 0 ≤ st.2
  nodup : (st.1.map Prod.fst).Nodup
  entries : ∀ kv ∈ st.1, kv.1 ∈ packs ∧ 1 ≤ kv.2 ∧ st.2 < kv.1
  total : achieved st.1 + st.2 = q

/-- The selection loop, entering total `i` with state `st`, takes its branch
`else if overpack == minOverpack`. -/
def tieTaken (quantity : Int) (t : Tables) (st : SelState) (i : Int) : Prop :=
  ∃ di, readAt t.1 i = some di ∧ di ≠ MaxInt32 ∧
    ¬ (i - quantity < st.minOverpack) ∧ i - quantity = st.minOverpack

/-- The registries the program can hold: the initial value of `PackSizes`, and
what either handler leaves behind after serving a request. -/
inductive RegistryReachable : List Int → Prop where
  | start : RegistryReachable defaultPackSizes
  | update (registry : List Int) (r : SizesRequest) :
      RegistryReachable registry → RegistryReachable (SetPackSizes registry r).2
  | calculate (registry : List Int) (r : CalcRequest) :
      RegistryReachable registry → RegistryReachable (CalculatePacks registry r).2

/-! ## Lemmas on maps -/

theorem mapGet_mapSet (m : GoMap) (k v k' : Int) :
    mapGet (mapSet m k v) k' = if k' = k then v else mapGet m k' := by
  induction m with
  | nil => simp [mapSet, mapGet]
  | cons e rest ih =>
    obtain ⟨a, b⟩ := e
    by_cases h : k = a
    · subst h
      by_cases h' : k' = k <;> simp [mapSet, mapGet, h']
    · by_cases h' : k' = a
      · subst h'
        have : ¬ k' = k := fun e => h e.symm
        simp [mapSet, mapGet, h, this]
      · simp [mapSet, mapGet, h, h', ih]

theorem achieved_mapSet (m : GoMap) (k v : Int) :
    achieved (mapSet m k v) = achieved m - k * mapGet m k + k * v := by
  induction m with
  | nil => simp [mapSet, mapGet, achieved]
  | cons e rest ih =>
    obtain ⟨a, b⟩ := e
    by_cases h : k = a
    · subst h
      simp [mapSet, mapGet, achieved]
      ring
    · simp only [achieved] at ih
      simp [mapSet, mapGet, achieved, h, ih]
      ring

theorem countSum_mapSet (m : GoMap) (k v : Int) :
    countSum (mapSet m k v) = countSum m - mapGet m k + v := by
  induction m with
  | nil => simp [mapSet, mapGet, countSum]
  | cons e rest ih =>
    obtain ⟨a, b⟩ := e
    by_cases h : k = a
    · subst h
      simp [mapSet, mapGet, countSum]
      ring
    · simp only [countSum] at ih
      simp [mapSet, mapGet, countSum, h, ih]
      ring

theorem mem_mapSet (m : GoMap) (k v : Int) (e : Int × Int) (h : e ∈ mapSet m k v) :
    e = (k, v) ∨ e ∈ m := by
  induction m with
  | nil => simp [mapSet] at h; exact Or.inl h
  | cons e' rest ih =>
    obtain ⟨a, b⟩ := e'
    by_cases hk : k = a
    · subst hk
      simp only [mapSet, if_true, List.mem_cons] at h
      rcases h with h | h
      · exact Or.inl h
      · exact Or.inr (List.mem_cons_of_mem _ h)
    · simp only [mapSet, hk, if_false, List.mem_cons] at h
      rcases h with h | h
      · exact Or.inr (by simp [h])
      · rcases ih h with h' | h'
        · exact Or.inl h'
        · exact Or.inr (List.mem_cons_of_mem _ h')

theorem mapSet_of_not_mem (m : GoMap) (k v : Int) (h : k ∉ m.map Prod.fst) :
    mapSet m k v = m ++ [(k, v)] := by
  induction m with
  | nil => simp [mapSet]
  | cons e rest ih =>
    obtain ⟨a, b⟩ := e
    simp only [List.map_cons, List.mem_cons, not_or] at h
    simp [mapSet, h.1, ih h.2]

theorem keys_mapSet (m : GoMap) (k v : Int) :
    (mapSet m k v).map Prod.fst =
      if k ∈ m.map Prod.fst then m.map Prod.fst else m.map Prod.fst ++ [k] := by
  induction m with
  | nil => simp [mapSet]
  | cons e rest ih =>
    obtain ⟨a, b⟩ := e
    by_cases hk : k = a
    · subst hk
      simp [mapSet]
    · by_cases hm : k ∈ rest.map Prod.fst
      · simp only [mapSet, hk, if_false, List.map_cons, ih, hm, if_true]
        simp [hm]
      · simp only [mapSet, hk, if_false, List.map_cons, ih, hm]
        simp [hk, hm]

theorem nodup_keys_mapSet (m : GoMap) (k v : Int) (h : (m.map Prod.fst).Nodup) :
    ((mapSet m k v).map Prod.fst).Nodup := by
  rw [keys_mapSet]
  split
  · exact h
  · rename_i hk
    rw [List.nodup_append]
    refine ⟨h, List.nodup_singleton k, ?_⟩
    intro a ha hb
    simp at hb
    subst hb
    exact hk ha

theorem mapGet_of_not_mem (m : GoMap) (k : Int) (h : k ∉ m.map Prod.fst) : mapGet m k = 0 := by
  induction m with
  | nil => rfl
  | cons e rest ih =>
    obtain ⟨a, b⟩ := e
    simp only [List.map_cons, List.mem_cons, not_or] at h
    simp [mapGet, h.1, ih h.2]

theorem mapGet_mem (m : GoMap) (k : Int) (h : k ∈ m.map Prod.fst) : (k, mapGet m k) ∈ m := by
  induction m with
  | nil => simp at h
  | cons e rest ih =>
    obtain ⟨a, b⟩ := e
    by_cases hk : k = a
    · subst hk
      simp [mapGet]
    · simp only [List.map_cons, List.mem_cons, hk, false_or] at h
      simp [mapGet, hk, ih h]

theorem copyMap_aux (rest acc : GoMap) (h : ((acc ++ rest).map Prod.fst).Nodup) :
    rest.foldl (fun copy kv => mapSet copy kv.1 kv.2) acc = acc ++ rest := by
  induction rest generalizing acc with
  | nil => simp
  | cons e rest ih =>
    obtain ⟨a, b⟩ := e
    have hn : a ∉ acc.map Prod.fst := by
      intro ha
      rw [List.map_append, List.nodup_append] at h
      exact h.2.2 ha (by simp)
    simp only [List.foldl_cons]
    rw [mapSet_of_not_mem acc a b hn]
    have h' : (((acc ++ [(a, b)]) ++ rest).map Prod.fst).Nodup := by
      simpa using h
    rw [ih _ h']
    simp

theorem copyMap_eq (m : GoMap) (h : (m.map Prod.fst).Nodup) : copyMap m = m := by
  unfold copyMap
  rw [copyMap_aux m [] (by simpa using h)]
  simp

theorem foldl_count_eq (d : GoMap) (z : Int) :
    d.foldl (fun total kv => total + kv.2) z = z + countSum d := by
  induction d generalizing z with
  | nil => simp [countSum]
  | cons e rest ih =>
    simp only [List.foldl_cons, ih, countSum, List.map_cons, List.sum_cons]
    ring

theorem maxPackSize_aux (d : GoMap) (z : Int) :
    z ≤ d.foldl (fun maxSize kv => if kv.1 > maxSize then kv.1 else maxSize) z ∧
    (∀ kv ∈ d, kv.1 ≤ d.foldl (fun maxSize kv => if kv.1 > maxSize then kv.1 else maxSize) z) ∧
    (d.foldl (fun maxSize kv => if kv.1 > maxSize then kv.1 else maxSize) z = z ∨
      ∃ kv ∈ d, kv.1 = d.foldl (fun maxSize kv => if kv.1 > maxSize then kv.1 else maxSize) z) := by
  induction d generalizing z with
  | nil => simp
  | cons e rest ih =>
    simp only [List.foldl_cons]
    by_cases hz : e.1 > z
    · simp only [hz, if_true]
      obtain ⟨h1, h2, h3⟩ := ih e.1
      refine ⟨by omega, ?_, ?_⟩
      · intro kv hkv
        rcases List.mem_cons.1 hkv with h | h
        · subst h; exact h1
        · exact h2 kv h
      · right
        rcases h3 with h | ⟨kv, hkv, h⟩
        · exact ⟨e, by simp, h.symm⟩
        · exact ⟨kv, List.mem_cons_of_mem _ hkv, h⟩
    · simp only [hz, if_false]
      obtain ⟨h1, h2, h3⟩ := ih z
      refine ⟨h1, ?_, ?_⟩
      · intro kv hkv
        rcases List.mem_cons.1 hkv with h | h
        · subst h; omega
        · exact h2 kv h
      · rcases h3 with h | ⟨kv, hkv, h⟩
        · exact Or.inl h
        · exact Or.inr ⟨kv, List.mem_cons_of_mem _ hkv, h⟩

/-! ## Machine integers and slice reads -/

theorem wrapInt_of_range (x : Int) (h1 : -9223372036854775808 ≤ x) (h2 : x < 9223372036854775808) :
    wrapInt x = x := by
  unfold wrapInt
  omega

theorem wrapInt_overflow (x : Int) (h1 : 9223372036854775808 ≤ x) (h2 : x < 18446744073709551616) :
    wrapInt x = x - 18446744073709551616 := by
  unfold wrapInt
  omega

theorem readAt_natCast {α : Type} (l : List α) (i : Nat) : readAt l (i : Int) = l[i]? := by
  simp [readAt]

theorem readAt_eq_some {α : Type} (l : List α) (x : Int) (a : α) (h : readAt l x = some a) :
    0 ≤ x ∧ l[x.toNat]? = some a := by
  unfold readAt at h
  split at h
  · simp at h
  · exact ⟨by omega, h⟩

theorem readAt_isSome {α : Type} (l : List α) (x : Int) (h0 : 0 ≤ x) (h1 : x.toNat < l.length) :
    ∃ a, readAt l x = some a := by
  unfold readAt
  have : ¬ x < 0 := by omega
  simp only [this, if_false]
  exact ⟨l[x.toNat], List.getElem?_eq_getElem h1⟩

/-! ## The table construction -/

theorem goodDist_incr (packs : List Int) (d : GoMap) (t c s : Int)
    (h : GoodDist packs d t c) (hs : s ∈ packs) :
    GoodDist packs (mapIncr (copyMap d) s) (t + s) (c + 1) := by
  rw [copyMap_eq d h.nodup]
  have hget : 0 ≤ mapGet d s := by
    by_cases hm : s ∈ d.map Prod.fst
    · have := (h.entries _ (mapGet_mem d s hm)).2
      simp only at this
      omega
    · rw [mapGet_of_not_mem d s hm]
  refine ⟨nodup_keys_mapSet _ _ _ h.nodup, ?_, ?_, ?_⟩
  · intro kv hkv
    rcases mem_mapSet _ _ _ _ hkv with e | e
    · subst e
      exact ⟨hs, by simp only; omega⟩
    · exact h.entries kv e
  · unfold mapIncr
    rw [achieved_mapSet, h.total]
    ring
  · unfold mapIncr
    rw [countSum_mapSet, h.count]
    ring

theorem reaches_cons (packs : List Int) (t s : Int) (c : Nat) (h : Reaches packs t c)
    (hs : s ∈ packs) : Reaches packs (t + s) (c + 1) := by
  obtain ⟨L, hL, hsum, hlen⟩ := h
  refine ⟨s :: L, ?_, ?_, ?_⟩
  · intro x hx
    rcases List.mem_cons.1 hx with e | e
    · subst e; exact hs
    · exact hL x e
  · simp [hsum]; ring
  · simp [hlen]

theorem dpInner_spec (packs : List Int) (M : Int) (n : Nat) (hn : (n : Int) = M + 1)
    (hM : M + 1 < 9223372036854775808)
    (t t' : Tables) (i : Nat) (di s : Int)
    (hinv : TableInv packs n t) (hdi : t.1[i]? = some di) (hne : di ≠ MaxInt32)
    (hs : s ∈ packs) (hpos : 0 < s) (hrep : s < 9223372036854775808)
    (hstep : dpInner M i t s = some t') :
    TableInv packs n t' ∧ SameUpTo i t t' ∧ NoGrowth t t' ∧
      ((i : Int) + s ≤ M → ∃ d', t'.1[((i : Int) + s).toNat]? = some d' ∧ d' ≤ di + 1) := by
  have hi : i < n := by
    have := (List.getElem?_eq_some.1 hdi).1
    rw [hinv.len1] at this
    exact this
  have same : TableInv packs n t ∧ SameUpTo i t t ∧ NoGrowth t t :=
    ⟨hinv, fun _ _ => rfl, fun j d h => ⟨d, h, le_refl d⟩⟩
  unfold dpInner at hstep
  simp only at hstep
  by_cases hle : wrapInt ((i : Int) + s) ≤ M
  · rw [if_pos hle, readAt_natCast, hdi] at hstep
    cases hr : readAt t.1 (wrapInt ((i : Int) + s)) with
    | none => rw [hr] at hstep; simp at hstep
    | some dn =>
      obtain ⟨h0, hidx⟩ := readAt_eq_some _ _ _ hr
      have hnew : wrapInt ((i : Int) + s) = (i : Int) + s := by
        by_cases hov : (i : Int) + s < 9223372036854775808
        · exact wrapInt_of_range _ (by omega) hov
        · have := wrapInt_overflow ((i : Int) + s) (by omega) (by omega)
          omega
      rw [hnew] at hidx hle
      rw [hr, hnew] at hstep
      obtain ⟨pdi, hp⟩ := readAt_isSome t.2 (i : Int) (by omega)
        (by rw [hinv.len2]; simpa using hi)
      · rw [hp] at hstep
        simp only at hstep
        rw [readAt_natCast] at hp
        obtain ⟨k, hk⟩ : ∃ k : Nat, (k : Int) = (i : Int) + s := ⟨((i : Int) + s).toNat, by omega⟩
        have hkn : ((i : Int) + s).toNat = k := by omega
        rw [hkn] at hidx hstep ⊢
        have hki : i < k := by omega
        by_cases hlt : di + 1 < dn
        · rw [if_pos hlt] at hstep
          cases hstep
          have hkl : k < t.1.length := (List.getElem?_eq_some.1 hidx).1
          have hkl2 : k < t.2.length := by rw [hinv.len2, ← hinv.len1]; exact hkl
          have hdi' := hinv.entry i di hdi
          rcases hdi' with hdi' | ⟨hd0, hd1, pdj, hpdj, hgood, hreach⟩
          · exact absurd hdi' hne
          have hdn : dn ≤ MaxInt32 := by
            rcases hinv.entry k dn hidx with e | ⟨_, e, _⟩
            · omega
            · omega
          rw [hp] at hpdj
          cases hpdj
          refine ⟨⟨?_, ?_, ?_, ?_⟩, ?_, ?_, ?_⟩
          · simp [hinv.len1]
          · simp [hinv.len2]
          · simp only
            rw [List.getElem?_set_ne (by omega)]
            exact hinv.zero
          · intro j d hj
            simp only at hj ⊢
            by_cases hjk : k = j
            · subst hjk
              rw [List.getElem?_set_self hkl] at hj
              cases hj
              right
              refine ⟨by omega, by omega, mapIncr (copyMap pdi) s, ?_, ?_, ?_⟩
              · rw [List.getElem?_set_self hkl2]
              · rw [hk]
                exact goodDist_incr packs pdi i di s hgood hs
              · rw [hk]
                have : (di + 1).toNat = di.toNat + 1 := by omega
                rw [this]
                exact reaches_cons packs i s _ hreach hs
            · rw [List.getElem?_set_ne hjk] at hj
              rcases hinv.entry j d hj with e | ⟨e0, e1, pdj, e2, e3, e4⟩
              · exact Or.inl e
              · right
                refine ⟨e0, e1, pdj, ?_, e3, e4⟩
                rw [List.getElem?_set_ne hjk]
                exact e2
          · intro j hj
            simp only
            rw [List.getElem?_set_ne (by omega)]
          · intro j d hj
            simp only
            by_cases hjk : k = j
            · subst hjk
              rw [List.getElem?_set_self hkl]
              rw [hidx] at hj
              cases hj
              exact ⟨di + 1, rfl, by omega⟩
            · rw [List.getElem?_set_ne hjk]
              exact ⟨d, hj, le_refl d⟩
          · intro _
            simp only
            rw [List.getElem?_set_self hkl]
            exact ⟨di + 1, rfl, le_refl _⟩
        · rw [if_neg hlt] at hstep
          cases hstep
          exact ⟨same.1, same.2.1, same.2.2, fun _ => ⟨dn, hidx, by omega⟩⟩
  · rw [if_neg hle] at hstep
    cases hstep
    refine ⟨same.1, same.2.1, same.2.2, ?_⟩
    intro hc
    exfalso
    exact hle (by rw [wrapInt_of_range _ (by omega) (by omega)]; exact hc)

theorem dpInner_fold_spec (packs : List Int) (M : Int) (n : Nat) (hn : (n : Int) = M + 1)
    (hM : M + 1 < 9223372036854775808)
    (hpacks : ∀ s ∈ packs, 0 < s ∧ s < 9223372036854775808)
    (i : Nat) (di : Int) (hne : di ≠ MaxInt32) (l : List Int) (hl : ∀ s ∈ l, s ∈ packs) :
    ∀ (t t' : Tables), TableInv packs n t → t.1[i]? = some di →
      l.foldlM (dpInner M i) t = some t' →
      TableInv packs n t' ∧ SameUpTo i t t' ∧ NoGrowth t t' ∧
        (∀ s ∈ l, (i : Int) + s ≤ M →
          ∃ d', t'.1[((i : Int) + s).toNat]? = some d' ∧ d' ≤ di + 1) := by
  induction l with
  | nil =>
    intro t t' hinv _ h
    simp only [List.foldlM_nil] at h
    cases h
    exact ⟨hinv, fun _ _ => rfl, fun j d h => ⟨d, h, le_refl d⟩, by simp⟩
  | cons s rest ih =>
    intro t t' hinv hdi h
    rw [List.foldlM_cons] at h
    cases h1 : dpInner M i t s with
    | none => rw [h1] at h; simp at h
    | some t1 =>
      rw [h1] at h
      simp only [Option.bind_eq_bind, Option.some_bind] at h
      have hs : s ∈ packs := hl s (by simp)
      obtain ⟨a1, a2, a3, a4⟩ := dpInner_spec packs M n hn hM t t1 i di s hinv hdi hne hs
        (hpacks s hs).1 (hpacks s hs).2 h1
      have hdi1 : t1.1[i]? = some di := by rw [a2 i (le_refl i)]; exact hdi
      obtain ⟨b1, b2, b3, b4⟩ := ih (fun x hx => hl x (List.mem_cons_of_mem _ hx)) t1 t' a1 hdi1 h
      refine ⟨b1, ?_, ?_, ?_⟩
      · intro j hj
        rw [b2 j hj, a2 j hj]
      · intro j d hj
        obtain ⟨d1, e1, e2⟩ := a3 j d hj
        obtain ⟨d2, e3, e4⟩ := b3 j d1 e1
        exact ⟨d2, e3, by omega⟩
      · intro x hx hxM
        rcases List.mem_cons.1 hx with e | e
        · subst e
          obtain ⟨d1, e1, e2⟩ := a4 hxM
          obtain ⟨d2, e3, e4⟩ := b3 _ d1 e1
          exact ⟨d2, e3, by omega⟩
        · exact b4 x e hxM

theorem dpOuter_spec (packs : List Int) (M : Int) (n : Nat) (hn : (n : Int) = M + 1)
    (hM : M + 1 < 9223372036854775808)
    (hpacks : ∀ s ∈ packs, 0 < s ∧ s < 9223372036854775808)
    (k : Nat) (t t' : Tables) (hinv : TableInv packs n t) (hcl : Closed packs M k t)
    (h : dpOuter packs M t k = some t') :
    TableInv packs n t' ∧ Closed packs M (k + 1) t' := by
  unfold dpOuter at h
  rw [readAt_natCast] at h
  cases hdk : t.1[k]? with
  | none => rw [hdk] at h; simp at h
  | some dk =>
    rw [hdk] at h
    simp only at h
    by_cases hne : dk ≠ MaxInt32
    · rw [if_pos hne] at h
      obtain ⟨b1, b2, b3, b4⟩ := dpInner_fold_spec packs M n hn hM hpacks k dk hne packs
        (fun _ hx => hx) t t' hinv hdk h
      refine ⟨b1, ?_⟩
      intro j d hj hd hdne s hs hsM
      have hd0 : t.1[j]? = some d := by rw [← b2 j (by omega)]; exact hd
      by_cases hjk : j = k
      · subst hjk
        rw [hdk] at hd0
        cases hd0
        exact b4 s hs hsM
      · obtain ⟨d1, e1, e2⟩ := hcl j d (by omega) hd0 hdne s hs hsM
        obtain ⟨d2, e3, e4⟩ := b3 _ d1 e1
        exact ⟨d2, e3, by omega⟩
    · rw [if_neg hne] at h
      cases h
      refine ⟨hinv, ?_⟩
      intro j d hj hd hdne s hs hsM
      by_cases hjk : j = k
      · subst hjk
        rw [hdk] at hd
        cases hd
        exact absurd hdne hne
      · exact hcl j d (by omega) hd hdne s hs hsM

theorem dpLoop_spec (packs : List Int) (M : Int) (n : Nat) (hn : (n : Int) = M + 1)
    (hM : M + 1 < 9223372036854775808)
    (hpacks : ∀ s ∈ packs, 0 < s ∧ s < 9223372036854775808)
    (t0 : Tables) (hinv : TableInv packs n t0) (k : Nat) :
    ∀ t, (List.range k).foldlM (dpOuter packs M) t0 = some t →
      TableInv packs n t ∧ Closed packs M k t := by
  induction k with
  | zero =>
    intro t h
    simp only [List.range_zero, List.foldlM_nil] at h
    cases h
    exact ⟨hinv, fun j d hj => absurd hj (by omega)⟩
  | succ k ih =>
    intro t h
    rw [List.range_succ, List.foldlM_append] at h
    cases h1 : (List.range k).foldlM (dpOuter packs M) t0 with
    | none => rw [h1] at h; simp at h
    | some t1 =>
      rw [h1] at h
      simp only [Option.bind_eq_bind, Option.some_bind, List.foldlM_cons, List.foldlM_nil] at h
      obtain ⟨a1, a2⟩ := ih t1 h1
      cases h2 : dpOuter packs M t1 k with
      | none => rw [h2] at h; simp at h
      | some t2 =>
        rw [h2] at h
        simp only [Option.some_bind] at h
        cases h
        exact dpOuter_spec packs M n hn hM hpacks k t1 _ a1 a2 h2

theorem tableInv_init (packs : List Int) (n : Nat) (hn : 0 < n) :
    TableInv packs n ((List.replicate n MaxInt32).set 0 0, List.replicate n []) := by
  refine ⟨by simp, by simp, ?_, ?_⟩
  · simp only
    rw [List.getElem?_set_self (by simpa using hn)]
  · intro j d hj
    simp only at hj ⊢
    by_cases h0 : 0 = j
    · subst h0
      rw [List.getElem?_set_self (by simpa using hn)] at hj
      cases hj
      right
      refine ⟨le_refl _, by decide, [], ?_, ⟨by simp, by simp, rfl, rfl⟩, ⟨[], by simp, rfl, rfl⟩⟩
      rw [List.getElem?_replicate]
      simp [hn]
    · rw [List.getElem?_set_ne h0, List.getElem?_replicate] at hj
      split at hj
      · cases hj
        exact Or.inl rfl
      · simp at hj

theorem buildTables_spec (packs : List Int) (M : Int) (hM0 : -9223372036854775808 ≤ M)
    (hM1 : M < 9223372036854775808)
    (hpacks : ∀ s ∈ packs, 0 < s ∧ s < 9223372036854775808)
    (t : Tables) (h : buildTables packs M = some t) :
    0 ≤ M ∧ M + 1 < 9223372036854775808 ∧
      TableInv packs (M + 1).toNat t ∧ Closed packs M (M + 1).toNat t := by
  unfold buildTables at h
  simp only at h
  by_cases hlen : wrapInt (M + 1) < 0
  · rw [if_pos hlen] at h; simp at h
  · rw [if_neg hlen] at h
    by_cases hz : wrapInt (M + 1) = 0
    · rw [if_pos hz] at h; simp at h
    · rw [if_neg hz] at h
      have hM : M + 1 < 9223372036854775808 := by
        by_contra hc
        have := wrapInt_overflow (M + 1) (by omega) (by omega)
        omega
      have hw : wrapInt (M + 1) = M + 1 := wrapInt_of_range _ (by omega) hM
      rw [hw] at h hlen hz
      have hn : (((M + 1).toNat : Nat) : Int) = M + 1 := by omega
      obtain ⟨a1, a2⟩ := dpLoop_spec packs M (M + 1).toNat hn hM hpacks _
        (tableInv_init packs (M + 1).toNat (by omega)) (M + 1).toNat t h
      exact ⟨by omega, hM, a1, a2⟩

theorem dpInner_total (packs : List Int) (M : Int) (n : Nat) (hn : (n : Int) = M + 1)
    (t : Tables) (i : Nat) (s : Int) (hinv : TableInv packs n t) (hi : i < n)
    (hpos : 0 < s) (hov : M + s < 9223372036854775808) :
    ∃ t', dpInner M i t s = some t' := by
  unfold dpInner
  simp only
  have hw : wrapInt ((i : Int) + s) = (i : Int) + s := wrapInt_of_range _ (by omega) (by omega)
  rw [hw]
  by_cases hle : (i : Int) + s ≤ M
  · rw [if_pos hle]
    obtain ⟨di, h1⟩ := readAt_isSome t.1 (i : Int) (by omega) (by rw [hinv.len1]; omega)
    obtain ⟨dn, h2⟩ := readAt_isSome t.1 ((i : Int) + s) (by omega) (by rw [hinv.len1]; omega)
    obtain ⟨pdi, h3⟩ := readAt_isSome t.2 (i : Int) (by omega) (by rw [hinv.len2]; omega)
    rw [h1, h2, h3]
    simp only
    split
    · exact ⟨_, rfl⟩
    · exact ⟨_, rfl⟩
  · rw [if_neg hle]
    exact ⟨_, rfl⟩

theorem dpInner_fold_total (packs : List Int) (M : Int) (n : Nat) (hn : (n : Int) = M + 1)
    (hM : M + 1 < 9223372036854775808)
    (hpacks : ∀ s ∈ packs, 0 < s ∧ M + s < 9223372036854775808)
    (i : Nat) (di : Int) (hne : di ≠ MaxInt32) (l : List Int) (hl : ∀ s ∈ l, s ∈ packs) :
    ∀ (t : Tables), TableInv packs n t → t.1[i]? = some di →
      ∃ t', l.foldlM (dpInner M i) t = some t' := by
  induction l with
  | nil =>
    intro t _ _
    exact ⟨t, rfl⟩
  | cons s rest ih =>
    intro t hinv hdi
    have hi : i < n := by
      have := (List.getElem?_eq_some.1 hdi).1
      rw [hinv.len1] at this
      exact this
    have hs : s ∈ packs := hl s (by simp)
    obtain ⟨t1, h1⟩ := dpInner_total packs M n hn t i s hinv hi (hpacks s hs).1 (hpacks s hs).2
    obtain ⟨a1, a2, _, _⟩ := dpInner_spec packs M n hn hM t t1 i di s hinv hdi hne hs
      (hpacks s hs).1 (by have := (hpacks s hs).2; omega) h1
    have hdi1 : t1.1[i]? = some di := by rw [a2 i (le_refl i)]; exact hdi
    obtain ⟨t', h2⟩ := ih (fun x hx => hl x (List.mem_cons_of_mem _ hx)) t1 a1 hdi1
    refine ⟨t', ?_⟩
    rw [List.foldlM_cons, h1]
    simpa using h2

theorem dpOuter_total (packs : List Int) (M : Int) (n : Nat) (hn : (n : Int) = M + 1)
    (hM : M + 1 < 9223372036854775808)
    (hpacks : ∀ s ∈ packs, 0 < s ∧ M + s < 9223372036854775808)
    (k : Nat) (hk : k < n) (t : Tables) (hinv : TableInv packs n t) :
    ∃ t', dpOuter packs M t k = some t' := by
  unfold dpOuter
  rw [readAt_natCast]
  have hkl : k < t.1.length := by rw [hinv.len1]; exact hk
  rw [List.getElem?_eq_getElem hkl]
  simp only
  by_cases hne : t.1[k] ≠ MaxInt32
  · rw [if_pos hne]
    exact dpInner_fold_total packs M n hn hM hpacks k _ hne packs (fun _ hx => hx) t hinv
      (List.getElem?_eq_getElem hkl)
  · rw [if_neg hne]
    exact ⟨t, rfl⟩

theorem dpLoop_total (packs : List Int) (M : Int) (n : Nat) (hn : (n : Int) = M + 1)
    (hM : M + 1 < 9223372036854775808)
    (hpacks : ∀ s ∈ packs, 0 < s ∧ M + s < 9223372036854775808)
    (t0 : Tables) (hinv : TableInv packs n t0) (k : Nat) (hk : k ≤ n) :
    ∃ t, (List.range k).foldlM (dpOuter packs M) t0 = some t := by
  induction k with
  | zero => exact ⟨t0, rfl⟩
  | succ k ih =>
    obtain ⟨t1, h1⟩ := ih (by omega)
    have hp : ∀ s ∈ packs, 0 < s ∧ s < 9223372036854775808 := fun s hs =>
      ⟨(hpacks s hs).1, by have := (hpacks s hs).2; omega⟩
    obtain ⟨a1, _⟩ := dpLoop_spec packs M n hn hM hp t0 hinv k t1 h1
    obtain ⟨t2, h2⟩ := dpOuter_total packs M n hn hM hpacks k (by omega) t1 a1
    refine ⟨t2, ?_⟩
    rw [List.range_succ, List.foldlM_append, h1]
    simp [h2]

theorem buildTables_total (packs : List Int) (M : Int) (hM0 : 0 ≤ M)
    (hM : M + 1 < 9223372036854775808)
    (hpacks : ∀ s ∈ packs, 0 < s ∧ M + s < 9223372036854775808) :
    ∃ t, buildTables packs M = some t := by
  unfold buildTables
  simp only
  have hw : wrapInt (M + 1) = M + 1 := wrapInt_of_range _ (by omega) hM
  rw [hw]
  have h1 : ¬ M + 1 < 0 := by omega
  have h2 : ¬ M + 1 = 0 := by omega
  rw [if_neg h1, if_neg h2]
  have hn : (((M + 1).toNat : Nat) : Int) = M + 1 := by omega
  exact dpLoop_total packs M (M + 1).toNat hn hM hpacks _
    (tableInv_init packs (M + 1).toNat (by omega)) (M + 1).toNat (le_refl _)

/-- Minimality of the table: a list of fewer than `MaxInt32` sizes summing to
an index inside the table bounds that index's entry from above. -/
theorem table_le_of_list (packs : List Int) (M : Int) (n : Nat) (hn : (n : Int) = M + 1)
    (hpos : ∀ s ∈ packs, 0 < s) (t : Tables) (hinv : TableInv packs n t)
    (hcl : Closed packs M n t) (L : List Int) :
    (∀ x ∈ L, x ∈ packs) → L.sum ≤ M → (L.length : Int) < MaxInt32 →
      0 ≤ L.sum ∧ ∃ d, t.1[L.sum.toNat]? = some d ∧ d ≤ L.length := by
  induction L with
  | nil =>
    intro _ _ _
    refine ⟨by simp, 0, ?_, by simp⟩
    simpa using hinv.zero
  | cons s rest ih =>
    intro hL hsum hlen
    simp only [List.sum_cons, List.length_cons] at hsum hlen ⊢
    have hs : s ∈ packs := hL s (by simp)
    have hs0 := hpos s hs
    obtain ⟨h0, d, hd, hdle⟩ := ih (fun x hx => hL x (List.mem_cons_of_mem _ hx))
      (by omega) (by push_cast at hlen ⊢; omega)
    have hj : (rest.sum.toNat : Int) = rest.sum := by omega
    have hdne : d ≠ MaxInt32 := by push_cast at hlen; omega
    obtain ⟨d', hd', hle'⟩ := hcl rest.sum.toNat d (by omega) hd hdne s hs (by omega)
    refine ⟨by omega, d', ?_, by push_cast; omega⟩
    rw [hj] at hd'
    rw [show s + rest.sum = rest.sum + s by ring]
    exact hd'

/-! ## The selection loop -/

theorem selStep_unreached (b : Bool) (q : Int) (t : Tables) (st : SelState) (i : Int)
    (h1 : readAt t.1 i = some MaxInt32) :
    selStep b q t st i = some st := by
  simp [selStep, h1]

theorem selStep_take (b : Bool) (q : Int) (t : Tables) (st : SelState) (i d : Int) (p : GoMap)
    (h1 : readAt t.1 i = some d) (hd : d ≠ MaxInt32) (h2 : readAt t.2 i = some p)
    (h : i - q < st.minOverpack) :
    selStep b q t st i = some ⟨i - q, d, maxPackSize p, p⟩ := by
  simp [selStep, h1, h2, hd, h]

theorem selStep_worse (b : Bool) (q : Int) (t : Tables) (st : SelState) (i d : Int) (p : GoMap)
    (h1 : readAt t.1 i = some d) (h2 : readAt t.2 i = some p)
    (h : st.minOverpack < i - q) :
    selStep b q t st i = some st := by
  have e1 : ¬ i - q < st.minOverpack := by omega
  have e2 : ¬ i - q = st.minOverpack := by omega
  simp [selStep, h1, h2, e1, e2]

theorem readAt_table (packs : List Int) (n : Nat) (t : Tables) (hinv : TableInv packs n t)
    (i : Int) (h0 : 0 ≤ i) (h1 : i < n) :
    ∃ d p, readAt t.1 i = some d ∧ readAt t.2 i = some p ∧
      t.1[i.toNat]? = some d ∧ t.2[i.toNat]? = some p := by
  obtain ⟨d, hd⟩ := readAt_isSome t.1 i h0 (by rw [hinv.len1]; omega)
  obtain ⟨p, hp⟩ := readAt_isSome t.2 i h0 (by rw [hinv.len2]; omega)
  exact ⟨d, p, hd, hp, (readAt_eq_some _ _ _ hd).2, (readAt_eq_some _ _ _ hp).2⟩

theorem selStep_equal (b : Bool) (q : Int) (t : Tables) (st : SelState) (i d : Int) (p : GoMap)
    (h1 : readAt t.1 i = some d) (hd : d ≠ MaxInt32) (h2 : readAt t.2 i = some p)
    (h : i - q = st.minOverpack) :
    selStep b q t st i = some st ∨
      selStep b q t st i = some ⟨st.minOverpack, d, maxPackSize p, p⟩ := by
  have key : ∀ (c : Prop) [Decidable c] (x : SelState),
      (if c then some x else some st) = some st ∨ (if c then some x else some st) = some x := by
    intro c _ x
    by_cases hc : c
    · exact Or.inr (if_pos hc)
    · exact Or.inl (if_neg hc)
  unfold selStep
  rw [h1, h2]
  simp only [ne_eq, hd, not_false_eq_true, if_true, h, lt_self_iff_false, if_false]
  cases b
  · simp only [Bool.false_eq_true, if_false]
    exact key _ _
  · simp only [if_true]
    exact key _ _

/-- The scan of the first `k` totals from `quantity` on, with no bound on the
overpack: whatever is selected is the first reached total, and while nothing is
selected every total with an overpack below the sentinel is unreached. -/
theorem selScan (packs : List Int) (b : Bool) (q M : Int) (n : Nat) (t : Tables)
    (hinv : TableInv packs n t) (hn : (n : Int) = M + 1) (hq : 0 ≤ q) (k : Nat)
    (hkM : q + k ≤ M + 1) :
    ∃ st, ((List.range k).map (fun (j : Nat) => q + (j : Int))).foldlM (selStep b q t) selInit
        = some st ∧
      ((st = selInit ∧
          ∀ j : Nat, j < k → (j : Int) < MaxInt32 → t.1[(q + (j : Int)).toNat]? = some MaxInt32) ∨
       (∃ (j0 : Nat) (d0 : Int) (pd0 : GoMap), j0 < k ∧
          t.1[(q + (j0 : Int)).toNat]? = some d0 ∧ d0 ≠ MaxInt32 ∧
          t.2[(q + (j0 : Int)).toNat]? = some pd0 ∧
          (∀ j : Nat, j < j0 → t.1[(q + (j : Int)).toNat]? = some MaxInt32) ∧
          st.minOverpack = (j0 : Int) ∧ st.minTotalPacks = d0 ∧ st.minDistribution = pd0)) := by
  induction k with
  | zero =>
    refine ⟨selInit, rfl, Or.inl ⟨rfl, ?_⟩⟩
    intro j hj
    omega
  | succ k ih =>
    obtain ⟨st, hst, hcase⟩ := ih (by push_cast at hkM; omega)
    obtain ⟨d, p, r1, r2, g1, g2⟩ := readAt_table packs n t hinv (q + (k : Int)) (by omega)
      (by push_cast at hkM; omega)
    rw [List.range_succ, List.map_append, List.foldlM_append, hst]
    simp only [Option.bind_eq_bind, Option.some_bind, List.map_cons, List.map_nil,
      List.foldlM_cons, List.foldlM_nil]
    have hMax : MaxInt32 = 2147483647 := rfl
    rcases hcase with ⟨e, hall⟩ | ⟨j0, d0, pd0, hj0, a1, a2, a3, a4, a5, a6, a7⟩
    · have keep : ∀ j : Nat, j < k + 1 → (j : Int) < MaxInt32 → ¬ (k : Int) < MaxInt32 →
          t.1[(q + (j : Int)).toNat]? = some MaxInt32 := by
        intro j hj hjM hk
        exact hall j (by omega) hjM
      by_cases hd : d = MaxInt32
      · subst hd
        refine ⟨st, ?_, Or.inl ⟨e, ?_⟩⟩
        · rw [selStep_unreached b q t st _ r1]
          rfl
        · intro j hj hjM
          by_cases hjk : j = k
          · subst hjk; exact g1
          · exact hall j (by omega) hjM
      · subst e
        by_cases hk : (k : Int) < MaxInt32
        · refine ⟨⟨(k : Int), d, maxPackSize p, p⟩, ?_,
            Or.inr ⟨k, d, p, by omega, g1, hd, g2, ?_, rfl, rfl, rfl⟩⟩
          · rw [selStep_take b q t selInit _ d p r1 hd r2 (by simp only [selInit]; omega)]
            simp
          · intro j hj
            exact hall j hj (by omega)
        · by_cases hk' : (k : Int) = MaxInt32
          · rcases selStep_equal b q t selInit _ d p r1 hd r2
              (by simp only [selInit]; omega) with h | h
            · refine ⟨selInit, ?_, Or.inl ⟨rfl, fun j hj hjM => keep j hj hjM hk⟩⟩
              rw [h]
              rfl
            · refine ⟨⟨selInit.minOverpack, d, maxPackSize p, p⟩, ?_,
                Or.inr ⟨k, d, p, by omega, g1, hd, g2, ?_, ?_, rfl, rfl⟩⟩
              · rw [h]
                rfl
              · intro j hj
                exact hall j hj (by omega)
              · simp only [selInit]
                omega
          · refine ⟨selInit, ?_, Or.inl ⟨rfl, fun j hj hjM => keep j hj hjM hk⟩⟩
            rw [selStep_worse b q t selInit _ d p r1 r2 (by simp only [selInit]; omega)]
            rfl
    · refine ⟨st, ?_, Or.inr ⟨j0, d0, pd0, by omega, a1, a2, a3, a4, a5, a6, a7⟩⟩
      rw [selStep_worse b q t st _ d p r1 r2 (by omega)]
      rfl

theorem selRange_mem (q M i : Int) (h : i ∈ selRange q M) : q ≤ i ∧ i ≤ M := by
  unfold selRange at h
  simp only [List.mem_map, List.mem_range] at h
  obtain ⟨k, hk, rfl⟩ := h
  omega

/-! ## Sorting -/

theorem sortInts_cases (packs : List Int) (hne : packs ≠ []) :
    ∃ m rest, sortInts packs = m :: rest ∧ m ∈ packs ∧ (∀ s ∈ packs, m ≤ s) ∧
      (∀ x, x ∈ m :: rest ↔ x ∈ packs) := by
  have hperm : (sortInts packs).Perm packs := List.perm_insertionSort _ packs
  have hsorted : (sortInts packs).Sorted (· ≤ ·) := List.sorted_insertionSort _ packs
  cases hs : sortInts packs with
  | nil =>
    rw [hs] at hperm
    exact absurd (List.Perm.nil_eq hperm) (fun e => hne e.symm)
  | cons m rest =>
    rw [hs] at hperm hsorted
    have hmem : ∀ x, x ∈ m :: rest ↔ x ∈ packs := fun x => hperm.mem_iff
    refine ⟨m, rest, rfl, (hmem m).1 (by simp), ?_, hmem⟩
    intro s hs'
    rcases List.mem_cons.1 ((hmem s).2 hs') with e | e
    · omega
    · exact (List.sorted_cons.1 hsorted).1 s e

theorem sortInts_nil : sortInts [] = [] := rfl

theorem goodDist_congr (p1 p2 : List Int) (hmem : ∀ x, x ∈ p1 ↔ x ∈ p2) (d : GoMap) (t c : Int)
    (h : GoodDist p1 d t c) : GoodDist p2 d t c :=
  ⟨h.nodup, fun kv hkv => ⟨(hmem _).1 (h.entries kv hkv).1, (h.entries kv hkv).2⟩, h.total, h.count⟩

theorem reaches_congr (p1 p2 : List Int) (hmem : ∀ x, x ∈ p1 ↔ x ∈ p2) (t : Int) (c : Nat)
    (h : Reaches p1 t c) : Reaches p2 t c := by
  obtain ⟨L, h1, h2, h3⟩ := h
  exact ⟨L, fun x hx => (hmem x).1 (h1 x hx), h2, h3⟩

theorem tableInv_congr (p1 p2 : List Int) (hmem : ∀ x, x ∈ p1 ↔ x ∈ p2) (n : Nat) (t : Tables)
    (h : TableInv p1 n t) : TableInv p2 n t := by
  refine ⟨h.len1, h.len2, h.zero, ?_⟩
  intro j d hj
  rcases h.entry j d hj with e | ⟨e0, e1, pdj, e2, e3, e4⟩
  · exact Or.inl e
  · exact Or.inr ⟨e0, e1, pdj, e2, goodDist_congr p1 p2 hmem _ _ _ e3,
      reaches_congr p1 p2 hmem _ _ e4⟩

theorem closed_congr (p1 p2 : List Int) (hmem : ∀ x, x ∈ p1 ↔ x ∈ p2) (M : Int) (k : Nat)
    (t : Tables) (h : Closed p1 M k t) : Closed p2 M k t :=
  fun j d hj hd hne s hs hsM => h j d hj hd hne s ((hmem s).2 hs) hsM

theorem wrapInt_range (x : Int) :
    -9223372036854775808 ≤ wrapInt x ∧ wrapInt x < 9223372036854775808 := by
  unfold wrapInt
  omega

/-! ## The exact solver as a whole -/

/-- Whatever distribution the exact solver returns is the entry of the first
reached index at or above the quantity, in a table that satisfies the table
invariant and the relaxation property. -/
theorem optimal_returned (b : Bool) (q : Int) (packs : List Int) (d : GoMap) (n : Int)
    (hq : 0 < q) (hq2 : q < 9223372036854775808)
    (hp : ∀ s ∈ packs, 0 < s ∧ s < 9223372036854775808)
    (h : getOptimalPackDistributionWith b q packs = some (some d, n)) :
    ∃ (m : Int) (t : Tables) (i : Int), m ∈ packs ∧ (∀ s ∈ packs, m ≤ s) ∧
      q + m + 1 < 9223372036854775808 ∧
      TableInv packs (q + m + 1).toNat t ∧ Closed packs (q + m) (q + m + 1).toNat t ∧
      q ≤ i ∧ i ≤ q + m ∧ t.1[i.toNat]? = some n ∧ n ≠ MaxInt32 ∧ t.2[i.toNat]? = some d ∧
      (∀ j : Int, q ≤ j → j < i → t.1[j.toNat]? = some MaxInt32) := by
  by_cases hne : packs = []
  · subst hne
    simp [getOptimalPackDistributionWith, sortInts_nil] at h
  obtain ⟨m, rest, hs, hm, hmin, hmem⟩ := sortInts_cases packs hne
  unfold getOptimalPackDistributionWith at h
  rw [hs] at h
  simp only at h
  cases hb : buildTables (m :: rest) (wrapInt (q + m)) with
  | none => rw [hb] at h; simp at h
  | some t =>
    rw [hb] at h
    simp only at h
    cases hf : (selRange q (wrapInt (q + m))).foldlM (selStep b q t) selInit with
    | none => rw [hf] at h; simp at h
    | some st =>
      rw [hf] at h
      simp only [Option.some.injEq] at h
      have hp' : ∀ s ∈ m :: rest, 0 < s ∧ s < 9223372036854775808 :=
        fun s hs' => hp s ((hmem s).1 hs')
      obtain ⟨c0, c1, c2, c3⟩ := buildTables_spec (m :: rest) (wrapInt (q + m))
        (wrapInt_range _).1 (wrapInt_range _).2 hp' t hb
      have hm0 := hp m hm
      have hw : wrapInt (q + m) = q + m := by
        by_cases hov : q + m < 9223372036854775808
        · exact wrapInt_of_range _ (by omega) hov
        · have := wrapInt_overflow (q + m) (by omega) (by omega)
          omega
      rw [hw] at c0 c1 c2 c3 hf
      have inv := tableInv_congr _ _ hmem _ _ c2
      have hn : (((q + m + 1).toNat : Nat) : Int) = q + m + 1 := by omega
      obtain ⟨st', hst', hcase⟩ := selScan packs b q (q + m) _ t inv hn (by omega)
        (m + 1).toNat (by omega)
      have hrange : selRange q (q + m)
          = (List.range (m + 1).toNat).map (fun (j : Nat) => q + (j : Int)) := by
        unfold selRange
        have : (q + m - q + 1).toNat = (m + 1).toNat := by omega
        rw [this]
      rw [hrange, hst'] at hf
      simp only [Option.some.injEq] at hf
      subst hf
      unfold selFinish at h
      split at h
      · simp at h
      · rename_i hmt
        simp only [Prod.mk.injEq, Option.some.injEq] at h
        rcases hcase with ⟨e, _⟩ | ⟨j0, d0, pd0, hj0, a1, a2, a3, a4, a5, a6, a7⟩
        · subst e
          exact absurd rfl hmt
        · refine ⟨m, t, q + (j0 : Int), hm, hmin, c1, inv, closed_congr _ _ hmem _ _ _ c3,
            by omega, by omega, ?_, ?_, ?_, ?_⟩
          · rw [← h.2, a6]; exact a1
          · rw [← h.2, a6]; exact a2
          · rw [← h.1, a7]; exact a3
          · intro j hj1 hj2
            have := a4 (j - q).toNat (by omega)
            have e : (q + (((j - q).toNat : Nat) : Int)).toNat = j.toNat := by omega
            rw [e] at this
            exact this

theorem sum_ge_of_ge (L : List Int) (m : Int) (h : ∀ x ∈ L, m ≤ x) :
    (L.length : Int) * m ≤ L.sum := by
  induction L with
  | nil => simp
  | cons a rest ih =>
    have h1 := h a (by simp)
    have h2 := ih (fun x hx => h x (List.mem_cons_of_mem _ hx))
    simp only [List.length_cons, List.sum_cons]
    push_cast
    linarith

theorem multiple_in_window (q m : Int) (hq : 0 < q) (hm : 0 < m) :
    ∃ c : Int, 1 ≤ c ∧ c ≤ q ∧ q ≤ c * m ∧ c * m < q + m := by
  refine ⟨(q + m - 1) / m, ?_⟩
  have e1 := Int.emod_add_ediv (q + m - 1) m
  have e2 := Int.emod_nonneg (q + m - 1) (by omega : m ≠ 0)
  have e3 := Int.emod_lt_of_pos (q + m - 1) hm
  have e4 : q ≤ (q + m - 1) / m * m := by nlinarith
  have e5 : (q + m - 1) / m * m < q + m := by nlinarith
  have e6 : 1 ≤ (q + m - 1) / m := by
    by_contra hc
    have : (q + m - 1) / m ≤ 0 := by omega
    nlinarith
  refine ⟨e6, ?_, e4, e5⟩
  nlinarith [mul_nonneg (by omega : (0 : Int) ≤ m - 1) (by omega : (0 : Int) ≤ (q + m - 1) / m - 1)]

theorem optimal_unfold (b : Bool) (q : Int) (packs : List Int) (m : Int) (rest : List Int)
    (t : Tables) (st : SelState) (hs : sortInts packs = m :: rest)
    (hw : wrapInt (q + m) = q + m) (hb : buildTables (m :: rest) (q + m) = some t)
    (hf : (selRange q (q + m)).foldlM (selStep b q t) selInit = some st) :
    getOptimalPackDistributionWith b q packs = some (selFinish st) := by
  unfold getOptimalPackDistributionWith
  rw [hs]
  simp only
  rw [hw, hb]
  simp only
  rw [hf]

/-- Inside the bounds the exact solver returns the table entry of the first
reached total at or above the quantity, and that total lies less than one
smallest pack above the quantity. -/
theorem optimal_first (b : Bool) (q : Int) (packs : List Int)
    (hq : 0 < q) (hqM : q < MaxInt32) (hne : packs ≠ [])
    (hp : ∀ s ∈ packs, 0 < s ∧ s < 4611686018427387904)
    (hsmall : ∃ s ∈ packs, s ≤ MaxInt32) :
    ∃ (m : Int) (t : Tables) (i : Int) (d : GoMap) (n : Int),
      m ∈ packs ∧ (∀ s ∈ packs, m ≤ s) ∧
      TableInv packs (q + m + 1).toNat t ∧ Closed packs (q + m) (q + m + 1).toNat t ∧
      q ≤ i ∧ i < q + m ∧ t.1[i.toNat]? = some n ∧ n ≠ MaxInt32 ∧ t.2[i.toNat]? = some d ∧
      (∀ j : Int, q ≤ j → j < i → t.1[j.toNat]? = some MaxInt32) ∧
      getOptimalPackDistributionWith b q packs = some (some d, n) := by
  obtain ⟨m, rest, hs, hm, hmin, hmem⟩ := sortInts_cases packs hne
  have hm0 := hp m hm
  have hmM : m ≤ MaxInt32 := by
    obtain ⟨s, hs1, hs2⟩ := hsmall
    have := hmin s hs1
    omega
  have hMax : MaxInt32 = 2147483647 := rfl
  have hw : wrapInt (q + m) = q + m := wrapInt_of_range _ (by omega) (by omega)
  have hp1 : ∀ s ∈ m :: rest, 0 < s ∧ q + m + s < 9223372036854775808 := by
    intro s hs'
    have := hp s ((hmem s).1 hs')
    omega
  have hp2 : ∀ s ∈ m :: rest, 0 < s ∧ s < 9223372036854775808 := by
    intro s hs'
    have := hp s ((hmem s).1 hs')
    omega
  obtain ⟨t, hb⟩ := buildTables_total (m :: rest) (q + m) (by omega) (by omega) hp1
  obtain ⟨_, _, c2, c3⟩ := buildTables_spec (m :: rest) (q + m) (by omega) (by omega) hp2 t hb
  have inv := tableInv_congr _ _ hmem _ _ c2
  have cl := closed_congr _ _ hmem _ _ _ c3
  have hn : (((q + m + 1).toNat : Nat) : Int) = q + m + 1 := by omega
  -- a multiple of the smallest size lies in the window and is reached
  obtain ⟨c, k1, k2, k3, k4⟩ := multiple_in_window q m hq hm0.1
  have hreach := table_le_of_list packs (q + m) (q + m + 1).toNat hn (fun s hs' => (hp s hs').1)
    t inv cl (List.replicate c.toNat m)
    (fun x hx => by rw [List.eq_of_mem_replicate hx]; exact hm)
    (by
      rw [List.sum_replicate, nsmul_eq_mul]
      have : ((c.toNat : Nat) : Int) = c := by omega
      rw [this]
      omega)
    (by
      rw [List.length_replicate]
      omega)
  rw [List.sum_replicate, nsmul_eq_mul, List.length_replicate] at hreach
  have hc : ((c.toNat : Nat) : Int) = c := by omega
  rw [hc] at hreach
  obtain ⟨_, dstar, hd1, hd2⟩ := hreach
  -- the scan of the totals below `q + m`
  obtain ⟨st, hst, hcase⟩ := selScan packs b q (q + m) (q + m + 1).toNat t inv hn (by omega)
    m.toNat (by omega)
  have hrange : selRange q (q + m) =
      (List.range m.toNat).map (fun (j : Nat) => q + (j : Int)) ++ [q + m] := by
    unfold selRange
    have : (q + m - q + 1).toNat = m.toNat + 1 := by omega
    rw [this, List.range_succ, List.map_append]
    simp only [List.map_cons, List.map_nil]
    have : ((m.toNat : Nat) : Int) = m := by omega
    rw [this]
  rcases hcase with ⟨_, hall⟩ | ⟨j0, d0, pd0, a0, a1, a2, a3, a4, a5, a6, a7⟩
  · exfalso
    have := hall (c * m - q).toNat (by omega) (by omega)
    have e : (q + (((c * m - q).toNat : Nat) : Int)).toNat = (c * m).toNat := by omega
    rw [e, hd1] at this
    simp only [Option.some.injEq] at this
    omega
  · obtain ⟨dl, pl, r1, r2, _, _⟩ := readAt_table packs (q + m + 1).toNat t inv (q + m)
      (by omega) (by omega)
    have hlast : selStep b q t st (q + m) = some st :=
      selStep_worse b q t st (q + m) dl pl r1 r2 (by omega)
    have hfold : (selRange q (q + m)).foldlM (selStep b q t) selInit = some st := by
      rw [hrange, List.foldlM_append, hst]
      simp [hlast]
    refine ⟨m, t, q + (j0 : Int), pd0, d0, hm, hmin, inv, cl, by omega, by omega, a1, a2, a3,
      ?_, ?_⟩
    · intro j hj1 hj2
      have := a4 (j - q).toNat (by omega)
      have e : (q + (((j - q).toNat : Nat) : Int)).toNat = j.toNat := by omega
      rw [e] at this
      exact this
    · rw [optimal_unfold b q packs m rest t st hs hw hb hfold]
      simp [selFinish, a6, a7, a2]

theorem entry_good (packs : List Int) (n : Nat) (t : Tables) (hinv : TableInv packs n t)
    (j : Nat) (c : Int) (d : GoMap) (h1 : t.1[j]? = some c) (hc : c ≠ MaxInt32)
    (h2 : t.2[j]? = some d) :
    0 ≤ c ∧ c < MaxInt32 ∧ GoodDist packs d j c ∧ Reaches packs j c.toNat := by
  rcases hinv.entry j c h1 with e | ⟨e0, e1, pdj, e2, e3, e4⟩
  · exact absurd e hc
  · rw [h2] at e2
    cases e2
    exact ⟨e0, e1, e3, e4⟩

/-- Inside the quantity bound, a list of pack sizes whose sum is below
`q + m` has fewer than `MaxInt32` elements. -/
theorem short_of_sum_lt (L : List Int) (q m : Int) (hm : 0 < m) (hqM : q < MaxInt32)
    (hL : ∀ x ∈ L, m ≤ x) (hsum : L.sum < q + m) : (L.length : Int) < MaxInt32 := by
  have h1 := sum_ge_of_ge L m hL
  have hMax : MaxInt32 = 2147483647 := rfl
  by_contra hc
  have h2 : (2147483647 : Int) ≤ L.length := by omega
  have h3 : (2147483647 : Int) * m ≤ (L.length : Int) * m :=
    Int.mul_le_mul_of_nonneg_right h2 (by omega)
  omega

theorem multiset_as_list (Mu : Multiset Int) :
    ∃ L : List Int, (∀ x, x ∈ Mu ↔ x ∈ L) ∧ Mu.sum = L.sum ∧ Mu.card = L.length := by
  induction Mu using Quotient.inductionOn with
  | _ L => exact ⟨L, fun x => Iff.rfl, rfl, rfl⟩

theorem selFold_stay (b : Bool) (q : Int) (t : Tables) (st : SelState) (l : List Int)
    (h : ∀ i ∈ l, selStep b q t st i = some st) :
    l.foldlM (selStep b q t) st = some st := by
  induction l with
  | nil => rfl
  | cons i rest ih =>
    rw [List.foldlM_cons, h i (by simp)]
    simp only [Option.bind_eq_bind, Option.some_bind]
    exact ih (fun x hx => h x (List.mem_cons_of_mem _ hx))

theorem selStep_init_big (q : Int) (t : Tables) (i d : Int) (p : GoMap)
    (h1 : readAt t.1 i = some d) (h2 : readAt t.2 i = some p)
    (ho : MaxInt32 ≤ i - q) (hl : MaxInt32 < maxPackSize p) :
    selStep true q t selInit i = some selInit := by
  have e1 : ¬ i - q < MaxInt32 := by omega
  have e2 : ¬ maxPackSize p < MaxInt32 := by omega
  have e3 : ¬ maxPackSize p = MaxInt32 := by omega
  by_cases hd : d = MaxInt32
  · subst hd
    exact selStep_unreached true q t selInit i h1
  · by_cases he : i - q = MaxInt32
    · simp [selStep, h1, h2, hd, selInit, he, e2, e3]
    · simp [selStep, h1, h2, hd, selInit, he, e1]

theorem sum_const (L : List Int) (s : Int) (h : ∀ x ∈ L, x = s) :
    L.sum = (L.length : Int) * s := by
  induction L with
  | nil => simp
  | cons a rest ih =>
    have h1 := h a (by simp)
    have h2 := ih (fun x hx => h x (List.mem_cons_of_mem _ hx))
    simp only [List.length_cons, List.sum_cons]
    push_cast
    rw [h1, h2]
    ring

theorem sum_units (L : List Int) (B : Int) (h : ∀ x ∈ L, x = 1 ∨ B ≤ x) (hB : 1 ≤ B)
    (hsum : L.sum < B) : L.sum = (L.length : Int) := by
  induction L with
  | nil => simp
  | cons a rest ih =>
    simp only [List.length_cons, List.sum_cons] at hsum ⊢
    have h1 := h a (by simp)
    have h2 := ih (fun x hx => h x (List.mem_cons_of_mem _ hx)) (by omega)
    push_cast
    omega

theorem maxPackSize_single_size (packs : List Int) (p : GoMap) (s t c : Int)
    (g : GoodDist packs p t c) (hk : ∀ x ∈ packs, x = s) (hs : 0 < s) (ht : t ≠ 0) :
    maxPackSize p = s := by
  obtain ⟨_, h2, h3⟩ := maxPackSize_aux p 0
  have hne : p ≠ [] := by
    intro e
    subst e
    have := g.total
    simp [achieved] at this
    exact ht this.symm
  obtain ⟨kv, hkv⟩ := List.exists_mem_of_ne_nil p hne
  have e1 := hk kv.1 (g.entries kv hkv).1
  have e2 := h2 kv hkv
  unfold maxPackSize
  rcases h3 with e | ⟨kv', hkv', e⟩
  · omega
  · rw [← e]
    exact hk kv'.1 (g.entries kv' hkv').1

/-- A single pack size above `MaxInt32` and quantity 1: the only total in the
window is the size itself, its overpack is not below the sentinel, and
nothing is selected. -/
theorem optimal_single_big (s : Int) (h1 : MaxInt32 < s) (h2 : s < 4611686018427387904) :
    getOptimalPackDistributionWith true 1 [s] = some (none, MaxInt32) := by
  have hMax : MaxInt32 = 2147483647 := rfl
  have hs : sortInts [s] = [s] := rfl
  have hw : wrapInt (1 + s) = 1 + s := wrapInt_of_range _ (by omega) (by omega)
  obtain ⟨t, hb⟩ := buildTables_total [s] (1 + s) (by omega) (by omega)
    (fun x hx => by simp only [List.mem_singleton] at hx; subst hx; omega)
  obtain ⟨_, _, inv, _⟩ := buildTables_spec [s] (1 + s) (by omega) (by omega)
    (fun x hx => by simp only [List.mem_singleton] at hx; subst hx; omega) t hb
  have hn : (((1 + s + 1).toNat : Nat) : Int) = 1 + s + 1 := by omega
  have hstay : ∀ i ∈ selRange 1 (1 + s), selStep true 1 t selInit i = some selInit := by
    intro i hi
    obtain ⟨i1, i2⟩ := selRange_mem _ _ _ hi
    obtain ⟨d, p, r1, r2, g1, g2⟩ := readAt_table [s] _ t inv i (by omega) (by omega)
    by_cases hd : d = MaxInt32
    · subst hd
      exact selStep_unreached true 1 t selInit i r1
    · obtain ⟨_, _, g, ⟨L, l1, l2, _⟩⟩ := entry_good [s] _ t inv i.toNat d p g1 hd g2
      have hi' : ((i.toNat : Nat) : Int) = i := by omega
      rw [hi'] at g l2
      have hsum := sum_const L s (fun x hx => by simpa using l1 x hx)
      rw [l2] at hsum
      have hlen : (L.length : Int) = 1 := by
        have : (L.length : Int) < 2 := by
          by_contra hc
          have : (2 : Int) * s ≤ (L.length : Int) * s :=
            Int.mul_le_mul_of_nonneg_right (by omega) (by omega)
          omega
        have : (0 : Int) < L.length := by
          by_contra hc
          have : (L.length : Int) = 0 := by omega
          rw [this] at hsum
          omega
        omega
      rw [hlen] at hsum
      have hmax := maxPackSize_single_size [s] p s i d g (fun x hx => by simpa using hx)
        (by omega) (by omega)
      exact selStep_init_big 1 t i d p r1 r2 (by omega) (by omega)
  have hf := selFold_stay true 1 t selInit _ hstay
  rw [optimal_unfold true 1 [s] s [] t selInit hs hw hb hf]
  rfl

/-- Quantity `MaxInt32` served by unit packs alone: every total in the window
needs at least `MaxInt32` packs, which the table cannot tell from unreached,
and nothing is selected. -/
theorem optimal_unit_sentinel (b : Bool) :
    getOptimalPackDistributionWith b 2147483647 [1] = some (none, MaxInt32) := by
  have hMax : MaxInt32 = 2147483647 := rfl
  have hs : sortInts [1] = [1] := rfl
  have hw : wrapInt (2147483647 + 1) = 2147483647 + 1 :=
    wrapInt_of_range _ (by omega) (by omega)
  obtain ⟨t, hb⟩ := buildTables_total [1] (2147483647 + 1) (by omega) (by omega)
    (fun x hx => by simp only [List.mem_singleton] at hx; subst hx; omega)
  obtain ⟨_, _, inv, _⟩ := buildTables_spec [1] (2147483647 + 1) (by omega) (by omega)
    (fun x hx => by simp only [List.mem_singleton] at hx; subst hx; omega) t hb
  have hn : (((2147483647 + 1 + 1 : Int).toNat : Nat) : Int) = 2147483647 + 1 + 1 := by omega
  have hstay : ∀ i ∈ selRange 2147483647 (2147483647 + 1),
      selStep b 2147483647 t selInit i = some selInit := by
    intro i hi
    obtain ⟨i1, i2⟩ := selRange_mem _ _ _ hi
    obtain ⟨d, p, r1, r2, g1, g2⟩ := readAt_table [1] _ t inv i (by omega) (by omega)
    by_cases hd : d = MaxInt32
    · subst hd
      exact selStep_unreached b _ t selInit i r1
    · exfalso
      obtain ⟨_, dlt, _, ⟨L, l1, l2, l3⟩⟩ := entry_good [1] _ t inv i.toNat d p g1 hd g2
      have hsum := sum_const L 1 (fun x hx => by simpa using l1 x hx)
      omega
  have hf := selFold_stay b 2147483647 t selInit _ hstay
  rw [optimal_unfold b 2147483647 [1] 1 [] t selInit hs hw hb hf]
  rfl

theorem countSum_ge_length (d : GoMap) (h : ∀ kv ∈ d, 1 ≤ kv.2) :
    (d.length : Int) ≤ countSum d := by
  induction d with
  | nil => simp [countSum]
  | cons e rest ih =>
    have h1 := h e (by simp)
    have h2 := ih (fun kv hkv => h kv (List.mem_cons_of_mem _ hkv))
    simp only [countSum, List.map_cons, List.sum_cons, List.length_cons] at h2 ⊢
    push_cast
    omega

theorem goodDist_count_one (packs : List Int) (d : GoMap) (t : Int)
    (g : GoodDist packs d t 1) : d = [(t, 1)] := by
  have hlen := countSum_ge_length d (fun kv hkv => (g.entries kv hkv).2)
  have hcount := g.count
  have htotal := g.total
  cases d with
  | nil => simp [countSum] at hcount
  | cons e rest =>
    have h1 := (g.entries e (by simp)).2
    have h2 := countSum_ge_length rest (fun kv hkv => (g.entries kv (List.mem_cons_of_mem _ hkv)).2)
    simp only [countSum, List.map_cons, List.sum_cons] at hcount h2
    have hr : rest = [] := by
      apply List.eq_nil_of_length_eq_zero
      omega
    subst hr
    obtain ⟨k, v⟩ := e
    simp only [achieved, List.map_cons, List.map_nil, List.sum_cons, List.sum_nil,
      add_zero] at htotal hcount
    simp only at h1
    have hv : v = 1 := by omega
    subst hv
    simp only [mul_one] at htotal
    subst htotal
    rfl

theorem reaches_dvd (packs : List Int) (g t : Int) (c : Nat) (hg : ∀ x ∈ packs, g ∣ x)
    (h : Reaches packs t c) : g ∣ t := by
  obtain ⟨L, l1, l2, _⟩ := h
  rw [← l2]
  exact List.dvd_sum (fun x hx => hg x (l1 x hx))

/-- The literal scenario of quantity 251 with the default pack sizes: one
pack of 500. -/
theorem optimal_default_251 :
    getOptimalPackDistribution 251 defaultPackSizes = some (some [(500, 1)], 1) := by
  have hMax : MaxInt32 = 2147483647 := rfl
  have hp : ∀ s ∈ defaultPackSizes, 0 < s ∧ s < 4611686018427387904 := by decide
  obtain ⟨m, t, i, d, n, hm, hmin, inv, cl, i1, i2, a1, a2, a3, a4, hres⟩ :=
    optimal_first (decide ((251 : Int) < 500)) 251 defaultPackSizes (by decide) (by decide)
      (by decide) hp ⟨250, by decide, by decide⟩
  have hm250 : m = 250 := by
    have h1 := hmin 250 (by decide)
    have h2 : ∀ x ∈ defaultPackSizes, (250 : Int) ≤ x := by decide
    have h3 := h2 m hm
    omega
  subst hm250
  obtain ⟨n0, n1, g, hreach⟩ := entry_good defaultPackSizes _ t inv i.toNat n d a1 a2 a3
  have hi' : ((i.toNat : Nat) : Int) = i := by omega
  rw [hi'] at g hreach
  have hdvd : (250 : Int) ∣ i :=
    reaches_dvd defaultPackSizes 250 i _ (by decide) hreach
  have hi : i = 500 := by omega
  subst hi
  have hn : ((((251 : Int) + 250 + 1).toNat : Nat) : Int) = 251 + 250 + 1 := by omega
  obtain ⟨_, d', e1, e2⟩ := table_le_of_list defaultPackSizes (251 + 250) _ hn
    (fun s hs => (hp s hs).1) t inv cl [500] (by decide) (by decide) (by decide)
  simp only [List.sum_cons, List.sum_nil, add_zero, List.length_cons, List.length_nil,
    Nat.zero_add, Nat.cast_one] at e1 e2
  rw [a1] at e1
  simp only [Option.some.injEq] at e1
  subst e1
  have hlen := countSum_ge_length d (fun kv hkv => (g.entries kv hkv).2)
  have hn1 : n = 1 := by
    by_contra hc
    have hz : n = 0 := by omega
    have hcount := g.count
    rw [hz] at hcount
    have hnil : d = [] := by
      apply List.eq_nil_of_length_eq_zero
      omega
    have htotal := g.total
    rw [hnil] at htotal
    simp [achieved] at htotal
  subst hn1
  have := goodDist_count_one defaultPackSizes d 500 g
  subst this
  exact hres

/-! ## The exact solver: feasibility, minimal overpack, minimal pack count -/

/-- C1 (amended): for every quantity with `0 < quantity < MaxInt32` and every
non-empty list of positive pack sizes below `2^62` whose smallest size is at
most `MaxInt32`, `getOptimalPackDistribution` does not report NoSolution: it
returns a distribution, and the sum of `size * count` over it is at least the
quantity.  Distinctness of the sizes is not needed. -/
theorem optimal_never_undershoots (quantity : Int) (packs : List Int)
    (hq : 0 < quantity) (hqM : quantity < MaxInt32) (hne : packs ≠ [])
    (hp : ∀ s ∈ packs, 0 < s ∧ s < 4611686018427387904)
    (hsmall : ∃ s ∈ packs, s ≤ MaxInt32) :
    getOptimalPackDistribution quantity packs ≠ some (none, MaxInt32) ∧
    ∃ d n, getOptimalPackDistribution quantity packs = some (some d, n) ∧
      quantity ≤ achieved d := by
  obtain ⟨m, t, i, d, n, _, _, inv, _, i1, _, a1, a2, a3, _, hres⟩ :=
    optimal_first (decide (quantity < 500)) quantity packs hq hqM hne hp hsmall
  have hres' : getOptimalPackDistribution quantity packs = some (some d, n) := hres
  obtain ⟨_, _, g, _⟩ := entry_good packs _ t inv i.toNat n d a1 a2 a3
  refine ⟨by rw [hres']; simp, d, n, hres', ?_⟩
  rw [g.total]
  omega

/-- Witness of `optimal_never_undershoots` at quantity 6 and sizes 3, 5. -/
theorem optimal_never_undershoots_witness :
    getOptimalPackDistribution 6 [3, 5] ≠ some (none, MaxInt32) ∧
    ∃ d n, getOptimalPackDistribution 6 [3, 5] = some (some d, n) ∧ 6 ≤ achieved d :=
  optimal_never_undershoots 6 [3, 5] (by decide) (by decide) (by decide) (by decide) (by decide)

/-- C2 (amended): for every quantity with `0 < quantity < MaxInt32` and every
list of positive pack sizes (Go `int` values), whenever
`getOptimalPackDistribution` returns a distribution, its achieved total `a` is
the sum of a multiset of the pack sizes, satisfies
`quantity ≤ a ≤ quantity + s` for every pack size `s`, and is minimal: every
multiset of the pack sizes whose sum is at least the quantity sums to at
least `a`.  The function does return a distribution when in addition the list
is non-empty, every size is below `2^62` and the smallest is at most
`MaxInt32`.  Distinctness of the sizes is not needed. -/
theorem optimal_overpack_minimal (quantity : Int) (packs : List Int)
    (hq : 0 < quantity) (hqM : quantity < MaxInt32)
    (hp : ∀ s ∈ packs, 0 < s ∧ IsInt64 s) :
    (∀ d n, getOptimalPackDistribution quantity packs = some (some d, n) →
      (∃ Mu : Multiset Int, (∀ x ∈ Mu, x ∈ packs) ∧ Mu.sum = achieved d) ∧
      quantity ≤ achieved d ∧ (∀ s ∈ packs, achieved d ≤ quantity + s) ∧
      ∀ Mu : Multiset Int, (∀ x ∈ Mu, x ∈ packs) → quantity ≤ Mu.sum →
        achieved d ≤ Mu.sum) ∧
    (packs ≠ [] → (∀ s ∈ packs, s < 4611686018427387904) → (∃ s ∈ packs, s ≤ MaxInt32) →
      ∃ d n, getOptimalPackDistribution quantity packs = some (some d, n)) := by
  have hMax : MaxInt32 = 2147483647 := rfl
  constructor
  · intro d n h
    obtain ⟨m, t, i, hm, hmin, hM, inv, cl, i1, i2, a1, a2, a3, a4⟩ :=
      optimal_returned (decide (quantity < 500)) quantity packs d n hq (by omega)
        (fun s hs => ⟨(hp s hs).1, (hp s hs).2.2⟩) h
    obtain ⟨_, _, g, ⟨L, l1, l2, _⟩⟩ := entry_good packs _ t inv i.toNat n d a1 a2 a3
    have hi : ((i.toNat : Nat) : Int) = i := by omega
    have ha : achieved d = i := by rw [g.total, hi]
    refine ⟨⟨(L : Multiset Int), fun x hx => l1 x (by simpa using hx), ?_⟩, by omega, ?_, ?_⟩
    · rw [ha, Multiset.sum_coe, l2, hi]
    · intro s hs
      have := hmin s hs
      omega
    · intro Mu hMu hge
      obtain ⟨L', m1, m2, _⟩ := multiset_as_list Mu
      rw [ha, m2]
      rw [m2] at hge
      by_contra hlt
      have hL' : ∀ x ∈ L', x ∈ packs := fun x hx => hMu x ((m1 x).2 hx)
      have hshort := short_of_sum_lt L' quantity m (hp m hm).1 hqM
        (fun x hx => hmin x (hL' x hx)) (by omega)
      have hn : (((quantity + m + 1).toNat : Nat) : Int) = quantity + m + 1 := by
        have := (hp m hm).1
        omega
      obtain ⟨_, d', e1, e2⟩ := table_le_of_list packs (quantity + m) _ hn
        (fun s hs => (hp s hs).1) t inv cl L' hL' (by omega) hshort
      have := a4 L'.sum hge (by omega)
      rw [e1] at this
      simp only [Option.some.injEq] at this
      omega
  · intro hne hbound hsmall
    obtain ⟨m, t, i, d, n, _, _, _, _, _, _, _, _, _, _, hres⟩ :=
      optimal_first (decide (quantity < 500)) quantity packs hq hqM hne
        (fun s hs => ⟨(hp s hs).1, hbound s hs⟩) hsmall
    exact ⟨d, n, hres⟩

/-- Witness of `optimal_overpack_minimal` at quantity 6 and sizes 3, 5, where
the solver returns two packs of 3. -/
theorem optimal_overpack_minimal_witness :
    getOptimalPackDistribution 6 [3, 5] = some (some [(3, 2)], 2) ∧
    (∀ d n, getOptimalPackDistribution 6 [3, 5] = some (some d, n) →
      (∃ Mu : Multiset Int, (∀ x ∈ Mu, x ∈ [3, 5]) ∧ Mu.sum = achieved d) ∧
      6 ≤ achieved d ∧ (∀ s ∈ [3, 5], achieved d ≤ 6 + s) ∧
      ∀ Mu : Multiset Int, (∀ x ∈ Mu, x ∈ [3, 5]) → 6 ≤ Mu.sum → achieved d ≤ Mu.sum) ∧
    (([3, 5] : List Int) ≠ [] → (∀ s ∈ ([3, 5] : List Int), s < 4611686018427387904) →
      (∃ s ∈ ([3, 5] : List Int), s ≤ MaxInt32) →
      ∃ d n, getOptimalPackDistribution 6 [3, 5] = some (some d, n)) :=
  ⟨by decide, optimal_overpack_minimal 6 [3, 5] (by decide) (by decide) (by decide)⟩

/-- C3: for every quantity > 0 and every list of positive pack sizes (Go
`int` values), whenever `getOptimalPackDistribution` returns a distribution
`d` with pack count `n`, the counts of `d` add up to `n`, some multiset of `n`
pack sizes sums to the achieved total of `d`, and every multiset of the pack
sizes with that sum has at least `n` elements.  Non-emptiness and
distinctness of the sizes are not needed. -/
theorem optimal_pack_count_minimal (quantity : Int) (packs : List Int) (d : GoMap) (n : Int)
    (hq : 0 < quantity) (hq64 : IsInt64 quantity)
    (hp : ∀ s ∈ packs, 0 < s ∧ IsInt64 s)
    (h : getOptimalPackDistribution quantity packs = some (some d, n)) :
    countSum d = n ∧
    (∃ Mu : Multiset Int, (∀ x ∈ Mu, x ∈ packs) ∧ Mu.sum = achieved d ∧ (Mu.card : Int) = n) ∧
    ∀ Mu : Multiset Int, (∀ x ∈ Mu, x ∈ packs) → Mu.sum = achieved d → n ≤ Mu.card := by
  obtain ⟨m, t, i, hm, hmin, hM, inv, cl, i1, i2, a1, a2, a3, _⟩ :=
    optimal_returned (decide (quantity < 500)) quantity packs d n hq hq64.2
      (fun s hs => ⟨(hp s hs).1, (hp s hs).2.2⟩) h
  obtain ⟨n0, n1, g, ⟨L, l1, l2, l3⟩⟩ := entry_good packs _ t inv i.toNat n d a1 a2 a3
  have hi : ((i.toNat : Nat) : Int) = i := by omega
  have ha : achieved d = i := by rw [g.total, hi]
  refine ⟨g.count, ⟨(L : Multiset Int), fun x hx => l1 x (by simpa using hx), ?_, ?_⟩, ?_⟩
  · rw [ha, Multiset.sum_coe, l2, hi]
  · rw [Multiset.coe_card, l3]
    omega
  · intro Mu hMu hsum
    obtain ⟨L', m1, m2, m3⟩ := multiset_as_list Mu
    rw [m3]
    by_cases hlen : (L'.length : Int) < MaxInt32
    · have hn : (((quantity + m + 1).toNat : Nat) : Int) = quantity + m + 1 := by
        have := (hp m hm).1
        omega
      have hs' : L'.sum = i := by rw [← m2, hsum, ha]
      obtain ⟨_, d', e1, e2⟩ := table_le_of_list packs (quantity + m) _ hn
        (fun s hs => (hp s hs).1) t inv cl L' (fun x hx => hMu x ((m1 x).2 hx)) (by omega) hlen
      rw [hs', a1] at e1
      simp only [Option.some.injEq] at e1
      omega
    · omega

/-- Witness of `optimal_pack_count_minimal` at quantity 251 and the default
pack sizes, where the solver returns one pack of 500 (not two packs of 250). -/
theorem optimal_pack_count_minimal_witness :
    getOptimalPackDistribution 251 defaultPackSizes = some (some [(500, 1)], 1) ∧
    countSum [(500, 1)] = 1 ∧
    (∃ Mu : Multiset Int, (∀ x ∈ Mu, x ∈ defaultPackSizes) ∧ Mu.sum = achieved [(500, 1)] ∧
      (Mu.card : Int) = 1) ∧
    ∀ Mu : Multiset Int, (∀ x ∈ Mu, x ∈ defaultPackSizes) → Mu.sum = achieved [(500, 1)] →
      (1 : Int) ≤ Mu.card :=
  ⟨optimal_default_251,
    optimal_pack_count_minimal 251 defaultPackSizes [(500, 1)] 1 (by decide) (by decide)
      (by decide) optimal_default_251⟩

/-- C1 as stated fails: with quantity 1 and the single pack size `2^31`, and
with quantity `2^31 - 1` and the single pack size 1, the exact solver reports
NoSolution (the nil distribution with the `MaxInt32` count); with quantity 1
and pack sizes 1 and `2^63 - 1` it panics on a negative table index. -/
theorem optimal_never_undershoots_counterexample :
    getOptimalPackDistribution 1 [2147483648] = some (none, MaxInt32) ∧
    getOptimalPackDistribution 2147483647 [1] = some (none, MaxInt32) ∧
    getOptimalPackDistribution 1 [1, 9223372036854775807] = none := by
  refine ⟨?_, ?_, by decide⟩
  · unfold getOptimalPackDistribution
    exact optimal_single_big 2147483648 (by decide) (by decide)
  · unfold getOptimalPackDistribution
    exact optimal_unit_sentinel _

/-- C2 as stated fails: with quantity `2^31 - 1` and pack sizes 1 and `2^31`
the exact solver returns a distribution of achieved total `2^31`, although
`2^31 - 1` unit packs sum to the quantity itself. -/
theorem optimal_overpack_minimal_counterexample :
    ∃ d n, getOptimalPackDistribution 2147483647 [1, 2147483648] = some (some d, n) ∧
      achieved d = 2147483648 ∧
      ∃ Mu : Multiset Int, (∀ x ∈ Mu, x ∈ [1, 2147483648]) ∧
        2147483647 ≤ Mu.sum ∧ Mu.sum < achieved d := by
  have hMax : MaxInt32 = 2147483647 := rfl
  have hs : sortInts [1, 2147483648] = [1, 2147483648] := by decide
  have hw : wrapInt (2147483647 + 1) = 2147483647 + 1 :=
    wrapInt_of_range _ (by omega) (by omega)
  have hp : ∀ x ∈ [(1 : Int), 2147483648],
      0 < x ∧ 2147483647 + 1 + x < 9223372036854775808 := by
    intro x hx
    simp only [List.mem_cons, List.mem_singleton, List.not_mem_nil, or_false] at hx
    rcases hx with e | e <;> subst e <;> omega
  obtain ⟨t, hb⟩ := buildTables_total [1, 2147483648] (2147483647 + 1) (by omega) (by omega) hp
  obtain ⟨_, _, inv, cl⟩ := buildTables_spec [1, 2147483648] (2147483647 + 1) (by omega)
    (by omega) (fun x hx => ⟨(hp x hx).1, by have := (hp x hx).2; omega⟩) t hb
  have hn : (((2147483647 + 1 + 1 : Int).toNat : Nat) : Int) = 2147483647 + 1 + 1 := by omega
  obtain ⟨st, hst, hcase⟩ := selScan [1, 2147483648] (decide ((2147483647 : Int) < 500))
    2147483647 (2147483647 + 1) _ t inv hn (by omega) 2 (by norm_num)
  have hrange : selRange 2147483647 (2147483647 + 1) =
      (List.range 2).map (fun (j : Nat) => (2147483647 : Int) + (j : Int)) := by
    unfold selRange
    have : ((2147483647 : Int) + 1 - 2147483647 + 1).toNat = 2 := by omega
    rw [this]
  -- the total `2^31` is reached with one pack
  obtain ⟨d1, hd1, hd1le⟩ := cl 0 0 (by omega) inv.zero (by rw [hMax]; omega) 2147483648
    (by simp) (by norm_num)
  have hidx : (((0 : Nat) : Int) + 2147483648).toNat = 2147483648 := by omega
  rw [hidx] at hd1
  -- the total `2^31 - 1` is not reached with fewer than `MaxInt32` packs
  have hq : ∀ d0, t.1[(2147483647 : Nat)]? = some d0 → d0 = MaxInt32 := by
    intro d0 h0
    by_contra hne
    obtain ⟨p0, hp0⟩ : ∃ p0, t.2[(2147483647 : Nat)]? = some p0 := by
      have : (2147483647 : Nat) < t.2.length := by rw [inv.len2]; omega
      exact ⟨_, List.getElem?_eq_getElem this⟩
    obtain ⟨_, dlt, _, ⟨L, l1, l2, l3⟩⟩ := entry_good _ _ t inv 2147483647 d0 p0 h0 hne hp0
    have := sum_units L 2147483648 (fun x hx => by
      have := l1 x hx
      simp only [List.mem_cons, List.mem_singleton, List.not_mem_nil, or_false] at this
      rcases this with e | e
      · exact Or.inl e
      · exact Or.inr (by omega)) (by omega) (by rw [l2]; norm_num)
    rw [l2] at this
    omega
  rcases hcase with ⟨_, hall⟩ | ⟨j0, d0, pd0, a0, a1, a2, a3, a4, a5, a6, a7⟩
  · exfalso
    have := hall 1 (by omega) (by rw [hMax]; norm_num)
    have e : ((2147483647 : Int) + ((1 : Nat) : Int)).toNat = 2147483648 := by omega
    rw [e, hd1] at this
    simp only [Option.some.injEq] at this
    omega
  · have hj0 : j0 = 1 := by
      by_contra hc
      have hz : j0 = 0 := by omega
      subst hz
      have e : ((2147483647 : Int) + ((0 : Nat) : Int)).toNat = 2147483647 := by omega
      rw [e] at a1
      exact a2 (hq d0 a1)
    subst hj0
    have e : ((2147483647 : Int) + ((1 : Nat) : Int)).toNat = 2147483648 := by omega
    rw [e] at a1 a3
    obtain ⟨_, _, g, _⟩ := entry_good _ _ t inv 2147483648 d0 pd0 a1 a2 a3
    have hres := optimal_unfold (decide ((2147483647 : Int) < 500)) 2147483647 [1, 2147483648]
      1 [2147483648] t st hs hw hb (by rw [hrange]; exact hst)
    have hfin : selFinish st = (some pd0, d0) := by
      simp [selFinish, a6, a7, a2]
    rw [hfin] at hres
    have hach : achieved pd0 = 2147483648 := by rw [g.total]; norm_num
    refine ⟨pd0, d0, hres, hach, Multiset.replicate 2147483647 1, ?_, ?_, ?_⟩
    · intro x hx
      rw [Multiset.eq_of_mem_replicate hx]
      simp
    · rw [Multiset.sum_replicate]
      simp
    · rw [Multiset.sum_replicate, hach]
      simp

/-! ## The greedy fallback -/

theorem goDiv_pos (a b : Int) (ha : 0 ≤ a) (hb : 0 < b) : goDiv a b = some (a / b) := by
  unfold goDiv
  have h1 : ¬ b = 0 := by omega
  have h2 : ¬ (a = -9223372036854775808 ∧ b = -1) := by omega
  rw [if_neg h1, if_neg h2, Int.tdiv_eq_ediv ha (by omega)]

theorem greedyStep_spec (packs : List Int) (q : Int) (st : GoMap × Int) (s : Int)
    (hinv : GreedyInv packs q st) (hs : s ∈ packs) (hpos : 0 < s) :
    ∃ st', greedyStep st s = some st' ∧ GreedyInv packs q st' ∧ st'.2 < s ∧ st'.2 ≤ st.2 := by
  unfold greedyStep
  rw [goDiv_pos st.2 s hinv.rem0 hpos]
  simp only
  have hmod := Int.emod_def st.2 s
  have hm0 := Int.emod_nonneg st.2 (by omega : s ≠ 0)
  have hm1 := Int.emod_lt_of_pos st.2 hpos
  by_cases hc : st.2 / s > 0
  · rw [if_pos hc]
    have hge : s ≤ st.2 := by
      by_contra hlt
      have := Int.ediv_eq_zero_of_lt hinv.rem0 (by omega : st.2 < s)
      omega
    have hfresh : s ∉ st.1.map Prod.fst := by
      intro hmem
      have := (hinv.entries _ (mapGet_mem st.1 s hmem)).2.2
      simp only at this
      omega
    refine ⟨_, rfl, ⟨?_, ?_, ?_, ?_⟩, ?_, ?_⟩
    · simp only; omega
    · exact nodup_keys_mapSet _ _ _ hinv.nodup
    · intro kv hkv
      simp only at hkv ⊢
      rcases mem_mapSet _ _ _ _ hkv with e | e
      · subst e
        exact ⟨hs, by simp only; omega, by simp only; omega⟩
      · have := hinv.entries kv e
        exact ⟨this.1, this.2.1, by omega⟩
    · simp only
      rw [achieved_mapSet, mapGet_of_not_mem _ _ hfresh]
      have := hinv.total
      linarith
    · simp only; omega
    · simp only; omega
  · rw [if_neg hc]
    refine ⟨st, rfl, hinv, ?_, le_refl _⟩
    by_contra hge
    have : 1 ≤ st.2 / s := (Int.le_ediv_iff_mul_le hpos).2 (by omega)
    omega

theorem greedy_fold_spec (packs : List Int) (q : Int) (l : List Int)
    (hl : ∀ s ∈ l, s ∈ packs ∧ 0 < s) :
    ∀ st, GreedyInv packs q st →
      ∃ st', l.foldlM greedyStep st = some st' ∧ GreedyInv packs q st' ∧
        (∀ s ∈ l, st'.2 < s) ∧ st'.2 ≤ st.2 := by
  induction l with
  | nil =>
    intro st hinv
    exact ⟨st, rfl, hinv, by simp, le_refl _⟩
  | cons s rest ih =>
    intro st hinv
    obtain ⟨st1, h1, inv1, lt1, le1⟩ := greedyStep_spec packs q st s hinv (hl s (by simp)).1
      (hl s (by simp)).2
    obtain ⟨st2, h2, inv2, lt2, le2⟩ := ih (fun x hx => hl x (List.mem_cons_of_mem _ hx)) st1 inv1
    refine ⟨st2, ?_, inv2, ?_, by omega⟩
    · rw [List.foldlM_cons, h1]
      simpa using h2
    · intro x hx
      rcases List.mem_cons.1 hx with e | e
      · subst e; omega
      · exact lt2 x e

theorem reverseSort_mem (packs : List Int) (x : Int) : x ∈ reverseSort packs ↔ x ∈ packs :=
  (List.perm_insertionSort _ packs).mem_iff

theorem reverseSort_last (packs : List Int) (hne : packs ≠ []) :
    ∃ smallest, (reverseSort packs).getLast? = some smallest ∧ smallest ∈ packs ∧
      ∀ s ∈ packs, smallest ≤ s := by
  have hsorted : (reverseSort packs).Sorted (· ≥ ·) := List.sorted_insertionSort _ packs
  have hne' : reverseSort packs ≠ [] := by
    intro e
    have := (List.perm_insertionSort (· ≥ ·) packs).symm
    unfold reverseSort at e
    rw [e] at this
    exact hne (List.Perm.eq_nil this)
  cases hl : (reverseSort packs).getLast? with
  | none => exact absurd (List.getLast?_eq_none_iff.1 hl) hne'
  | some x =>
    obtain ⟨ys, hys⟩ := List.getLast?_eq_some_iff.1 hl
    refine ⟨x, rfl, (reverseSort_mem packs x).1 (by rw [hys]; simp), ?_⟩
    intro s hs
    have hs' := (reverseSort_mem packs s).2 hs
    rw [hys] at hs' hsorted
    rcases List.mem_append.1 hs' with e | e
    · have := (List.pairwise_append.1 hsorted).2.2 s e x (by simp)
      exact this
    · simp only [List.mem_singleton] at e
      omega

/-- The run of the greedy fallback on positive sizes: the loop ends in a state
that satisfies the loop invariant with a remainder below every pack size, and
the function returns the topped-up distribution with the sum of its counts. -/
theorem greedy_run (q : Int) (packs : List Int) (hq : 0 ≤ q) (hp : ∀ s ∈ packs, 0 < s) :
    ∃ dist rem, GreedyInv packs q (dist, rem) ∧ (∀ s ∈ packs, rem < s) ∧
      greedyPackFallback q packs =
        some (some (greedyTopUp (reverseSort packs) dist rem),
          countSum (greedyTopUp (reverseSort packs) dist rem)) := by
  have hinit : GreedyInv packs q ([], q) := ⟨hq, by simp, by simp, by simp [achieved]⟩
  obtain ⟨st, h1, inv, lt, _⟩ := greedy_fold_spec packs q (reverseSort packs)
    (fun s hs => ⟨(reverseSort_mem packs s).1 hs, hp s ((reverseSort_mem packs s).1 hs)⟩)
    ([], q) hinit
  refine ⟨st.1, st.2, inv, fun s hs => lt s ((reverseSort_mem packs s).2 hs), ?_⟩
  unfold greedyPackFallback
  simp only
  rw [h1]
  simp only [foldl_count_eq, zero_add]

theorem achieved_mapIncr (m : GoMap) (k : Int) : achieved (mapIncr m k) = achieved m + k := by
  unfold mapIncr
  rw [achieved_mapSet]
  ring

theorem countSum_mapIncr (m : GoMap) (k : Int) : countSum (mapIncr m k) = countSum m + 1 := by
  unfold mapIncr
  rw [countSum_mapSet]
  ring

/-- C4: for every quantity > 0 and every non-empty list of positive pack
sizes, `greedyPackFallback` returns a distribution whose achieved total `a`
satisfies `quantity ≤ a` and `a < quantity + s` for every pack size `s`, in
particular for the smallest one. -/
theorem greedy_total_window (quantity : Int) (packs : List Int)
    (hq : 0 < quantity) (hne : packs ≠ []) (hp : ∀ s ∈ packs, 0 < s) :
    ∃ d n, greedyPackFallback quantity packs = some (some d, n) ∧
      quantity ≤ achieved d ∧ ∀ s ∈ packs, achieved d < quantity + s := by
  obtain ⟨dist, rem, inv, lt, hres⟩ := greedy_run quantity packs (by omega) hp
  obtain ⟨smallest, hlast, hmem, hmin⟩ := reverseSort_last packs hne
  refine ⟨_, _, hres, ?_⟩
  have htot : achieved dist + rem = quantity := inv.total
  have hrem : 0 ≤ rem := inv.rem0
  unfold greedyTopUp
  rw [hlast]
  simp only
  by_cases hr : rem > 0
  · rw [if_pos hr, achieved_mapIncr]
    have := lt smallest hmem
    refine ⟨by omega, ?_⟩
    intro s hs
    have := hmin s hs
    omega
  · rw [if_neg hr]
    refine ⟨by omega, ?_⟩
    intro s hs
    have := hp s hs
    omega

/-- Witness of `greedy_total_window` at quantity 6 and sizes 3, 5. -/
theorem greedy_total_window_witness :
    ∃ d n, greedyPackFallback 6 [3, 5] = some (some d, n) ∧
      6 ≤ achieved d ∧ ∀ s ∈ [3, 5], achieved d < 6 + s :=
  greedy_total_window 6 [3, 5] (by decide) (by decide) (by decide)

/-! ## The pack-size registry -/

theorem sizeKeys_aux (sizes acc : List Int) (hacc : acc.Nodup) :
    (sizes.foldl (fun keys size => if size ∈ keys then keys else keys ++ [size]) acc).Nodup ∧
    ∀ x, x ∈ sizes.foldl (fun keys size => if size ∈ keys then keys else keys ++ [size]) acc ↔
      x ∈ acc ∨ x ∈ sizes := by
  induction sizes generalizing acc with
  | nil => simp [hacc]
  | cons a rest ih =>
    simp only [List.foldl_cons]
    by_cases ha : a ∈ acc
    · rw [if_pos ha]
      obtain ⟨h1, h2⟩ := ih acc hacc
      refine ⟨h1, fun x => ?_⟩
      rw [h2 x, List.mem_cons]
      constructor
      · rintro (h | h)
        · exact Or.inl h
        · exact Or.inr (Or.inr h)
      · rintro (h | h | h)
        · exact Or.inl h
        · subst h; exact Or.inl ha
        · exact Or.inr h
    · rw [if_neg ha]
      have hn : (acc ++ [a]).Nodup := by
        rw [List.nodup_append]
        refine ⟨hacc, List.nodup_singleton a, ?_⟩
        intro x hx hx'
        simp only [List.mem_singleton] at hx'
        subst hx'
        exact ha hx
      obtain ⟨h1, h2⟩ := ih (acc ++ [a]) hn
      refine ⟨h1, fun x => ?_⟩
      rw [h2 x, List.mem_append, List.mem_singleton, List.mem_cons]
      tauto

theorem uniqueAndSorted_nodup (sizes : List Int) : (uniqueAndSorted sizes).Nodup := by
  unfold uniqueAndSorted sizeKeys
  exact (List.perm_insertionSort _ _).nodup_iff.2 (sizeKeys_aux sizes [] List.nodup_nil).1

theorem uniqueAndSorted_mem (sizes : List Int) (x : Int) :
    x ∈ uniqueAndSorted sizes ↔ x ∈ sizes := by
  unfold uniqueAndSorted sizeKeys
  rw [(List.perm_insertionSort _ _).mem_iff, (sizeKeys_aux sizes [] List.nodup_nil).2 x]
  simp

theorem uniqueAndSorted_sorted (sizes : List Int) : (uniqueAndSorted sizes).Sorted (· > ·) := by
  have h1 : (uniqueAndSorted sizes).Sorted (· ≥ ·) := List.sorted_insertionSort _ _
  have h2 : (uniqueAndSorted sizes).Nodup := uniqueAndSorted_nodup sizes
  exact (List.Pairwise.and h1 h2).imp (fun h => by omega)

theorem setPackSizes_valid (registry : List Int) (r : SizesRequest) (sizes : List Int)
    (hm : r.method = "POST") (hc : r.contentType = "application/json")
    (ho : r.origin = AllowedOrigin) (ha : r.authorization = "Bearer " ++ AuthToken)
    (hb : r.body = some sizes) :
    SetPackSizes registry r =
      if sizes.length = 0 then (Response.failure 400, registry)
      else if sizes.any (fun size => decide (size ≤ 0)) then (Response.failure 400, registry)
      else (Response.updated, uniqueAndSorted sizes) := by
  have h1 : ¬ r.method = "OPTIONS" := by rw [hm]; decide
  unfold SetPackSizes
  rw [if_neg h1, if_neg (by simp [hm]), if_neg (by simp [hc]), if_neg (by simp [ho]),
    if_neg (by simp [ha]), hb]

/-- C5: a pack-size update that passes the method, content-type, origin and
token checks with a decodable body is rejected (status 400) exactly when the
supplied list is empty or contains an element `≤ 0`; a rejected update leaves
the registry as it was, and an accepted one installs `uniqueAndSorted` of the
list. -/
theorem setPackSizes_rejects_invalid (registry : List Int) (r : SizesRequest) (sizes : List Int)
    (hm : r.method = "POST") (hc : r.contentType = "application/json")
    (ho : r.origin = AllowedOrigin) (ha : r.authorization = "Bearer " ++ AuthToken)
    (hb : r.body = some sizes) :
    ((SetPackSizes registry r).1 = Response.failure 400 ↔ (sizes = [] ∨ ∃ x ∈ sizes, x ≤ 0)) ∧
    ((sizes = [] ∨ ∃ x ∈ sizes, x ≤ 0) → (SetPackSizes registry r).2 = registry) ∧
    (¬ (sizes = [] ∨ ∃ x ∈ sizes, x ≤ 0) →
      SetPackSizes registry r = (Response.updated, uniqueAndSorted sizes)) := by
  rw [setPackSizes_valid registry r sizes hm hc ho ha hb]
  by_cases h0 : sizes = []
  · subst h0
    simp
  · have hl : ¬ sizes.length = 0 := by
      intro e
      exact h0 (List.length_eq_zero.1 e)
    rw [if_neg hl]
    by_cases hx : ∃ x ∈ sizes, x ≤ 0
    · have : sizes.any (fun size => decide (size ≤ 0)) = true := by
        rw [List.any_eq_true]
        obtain ⟨x, x1, x2⟩ := hx
        exact ⟨x, x1, by simpa using x2⟩
      rw [if_pos this]
      simp [hx]
    · have : ¬ sizes.any (fun size => decide (size ≤ 0)) = true := by
        rw [List.any_eq_true]
        rintro ⟨x, x1, x2⟩
        exact hx ⟨x, x1, by simpa using x2⟩
      rw [if_neg this]
      simp [h0, hx]

/-- Witness of `setPackSizes_rejects_invalid`: the update with sizes
100, -200, 300 sent to the default registry. -/
theorem setPackSizes_rejects_invalid_witness :
    ((SetPackSizes defaultPackSizes
        ⟨"POST", "application/json", AllowedOrigin, "Bearer " ++ AuthToken,
          some [100, -200, 300]⟩).1 = Response.failure 400 ↔
      (([100, -200, 300] : List Int) = [] ∨ ∃ x ∈ ([100, -200, 300] : List Int), x ≤ 0)) ∧
    ((([100, -200, 300] : List Int) = [] ∨ ∃ x ∈ ([100, -200, 300] : List Int), x ≤ 0) →
      (SetPackSizes defaultPackSizes
        ⟨"POST", "application/json", AllowedOrigin, "Bearer " ++ AuthToken,
          some [100, -200, 300]⟩).2 = defaultPackSizes) ∧
    (¬ (([100, -200, 300] : List Int) = [] ∨ ∃ x ∈ ([100, -200, 300] : List Int), x ≤ 0) →
      SetPackSizes defaultPackSizes
        ⟨"POST", "application/json", AllowedOrigin, "Bearer " ++ AuthToken,
          some [100, -200, 300]⟩ = (Response.updated, uniqueAndSorted [100, -200, 300])) :=
  setPackSizes_rejects_invalid defaultPackSizes
    ⟨"POST", "application/json", AllowedOrigin, "Bearer " ++ AuthToken, some [100, -200, 300]⟩
    [100, -200, 300] rfl rfl rfl rfl rfl

/-- C6: for every non-empty list `S` of positive integers, a successful update
leaves `uniqueAndSorted S` in the registry; that list is strictly descending,
has no duplicates, and has exactly the elements of `S`. -/
theorem setPackSizes_installs_unique_sorted (registry : List Int) (r : SizesRequest)
    (S : List Int)
    (hm : r.method = "POST") (hc : r.contentType = "application/json")
    (ho : r.origin = AllowedOrigin) (ha : r.authorization = "Bearer " ++ AuthToken)
    (hb : r.body = some S) (hne : S ≠ []) (hpos : ∀ x ∈ S, 0 < x) :
    SetPackSizes registry r = (Response.updated, uniqueAndSorted S) ∧
    (uniqueAndSorted S).Sorted (· > ·) ∧ (uniqueAndSorted S).Nodup ∧
    ∀ x, x ∈ uniqueAndSorted S ↔ x ∈ S := by
  refine ⟨?_, uniqueAndSorted_sorted S, uniqueAndSorted_nodup S, uniqueAndSorted_mem S⟩
  rw [setPackSizes_valid registry r S hm hc ho ha hb]
  have hl : ¬ S.length = 0 := fun e => hne (List.length_eq_zero.1 e)
  have hany : ¬ S.any (fun size => decide (size ≤ 0)) = true := by
    rw [List.any_eq_true]
    rintro ⟨x, x1, x2⟩
    have := hpos x x1
    simp only [decide_eq_true_eq] at x2
    omega
  rw [if_neg hl, if_neg hany]

/-- Witness of `setPackSizes_installs_unique_sorted`: the update with sizes
100, 300, 200, 300 sent to the default registry. -/
theorem setPackSizes_installs_unique_sorted_witness :
    SetPackSizes defaultPackSizes
        ⟨"POST", "application/json", AllowedOrigin, "Bearer " ++ AuthToken,
          some [100, 300, 200, 300]⟩ = (Response.updated, uniqueAndSorted [100, 300, 200, 300]) ∧
    (uniqueAndSorted [100, 300, 200, 300]).Sorted (· > ·) ∧
    (uniqueAndSorted [100, 300, 200, 300]).Nodup ∧
    ∀ x, x ∈ uniqueAndSorted [100, 300, 200, 300] ↔ x ∈ ([100, 300, 200, 300] : List Int) :=
  setPackSizes_installs_unique_sorted defaultPackSizes
    ⟨"POST", "application/json", AllowedOrigin, "Bearer " ++ AuthToken,
      some [100, 300, 200, 300]⟩
    [100, 300, 200, 300] rfl rfl rfl rfl rfl (by decide) (by decide)

/-! ## The calculate handler -/

theorem calculatePacks_valid (registry : List Int) (r : CalcRequest) (q : Int)
    (hm : r.method = "POST") (hc : r.contentType = "application/json") (hb : r.body = some q) :
    CalculatePacks registry r =
      if q ≤ 0 then (Response.failure 400, registry)
      else if q > MaxInt32 then (Response.failure 400, registry)
      else if q ≤ MaxDPQuantity then
        (respond (getOptimalPackDistribution q registry), sortInts registry)
      else (respond (greedyPackFallback q registry), registry) := by
  unfold CalculatePacks
  rw [if_neg (by simp [hm]), if_neg (by simp [hc]), hb]

theorem respond_ne_failure (x : Option (Option GoMap × Int)) (code : Nat) :
    respond x ≠ Response.failure code := by
  cases x with
  | none => simp [respond]
  | some v => simp [respond]

/-- C7: a decodable calculate request is rejected (status 400), with the
registry untouched and no solver run, exactly when `quantity ≤ 0` or
`quantity > MaxInt32`; for `0 < quantity ≤ MaxInt32` the response is the
outcome of a solver run on the quantity and the registry. -/
theorem calculatePacks_quantity_check (registry : List Int) (r : CalcRequest) (quantity : Int)
    (hm : r.method = "POST") (hc : r.contentType = "application/json")
    (hb : r.body = some quantity) :
    ((CalculatePacks registry r).1 = Response.failure 400 ↔
      (quantity ≤ 0 ∨ quantity > MaxInt32)) ∧
    ((quantity ≤ 0 ∨ quantity > MaxInt32) →
      CalculatePacks registry r = (Response.failure 400, registry)) ∧
    (0 < quantity → quantity ≤ MaxInt32 →
      (CalculatePacks registry r).1 = respond (getOptimalPackDistribution quantity registry) ∨
      (CalculatePacks registry r).1 = respond (greedyPackFallback quantity registry)) := by
  rw [calculatePacks_valid registry r quantity hm hc hb]
  by_cases h0 : quantity ≤ 0
  · rw [if_pos h0]
    exact ⟨by simp [h0], fun _ => rfl, fun h => by omega⟩
  · rw [if_neg h0]
    by_cases h1 : quantity > MaxInt32
    · rw [if_pos h1]
      exact ⟨by simp [h1], fun _ => rfl, fun _ h => by omega⟩
    · rw [if_neg h1]
      by_cases h2 : quantity ≤ MaxDPQuantity
      · rw [if_pos h2]
        refine ⟨⟨fun h => absurd h (respond_ne_failure _ _), fun h => ?_⟩, fun h => ?_,
          fun _ _ => Or.inl rfl⟩
        · rcases h with h | h
          · exact absurd h h0
          · exact absurd h h1
        · rcases h with h | h
          · exact absurd h h0
          · exact absurd h h1
      · rw [if_neg h2]
        refine ⟨⟨fun h => absurd h (respond_ne_failure _ _), fun h => ?_⟩, fun h => ?_,
          fun _ _ => Or.inr rfl⟩
        · rcases h with h | h
          · exact absurd h h0
          · exact absurd h h1
        · rcases h with h | h
          · exact absurd h h0
          · exact absurd h h1

/-- Witness of `calculatePacks_quantity_check`: quantity `MaxInt32 + 1` sent to
the default registry. -/
theorem calculatePacks_quantity_check_witness :
    ((CalculatePacks defaultPackSizes ⟨"POST", "application/json", some 2147483648⟩).1 =
        Response.failure 400 ↔ ((2147483648 : Int) ≤ 0 ∨ (2147483648 : Int) > MaxInt32)) ∧
    (((2147483648 : Int) ≤ 0 ∨ (2147483648 : Int) > MaxInt32) →
      CalculatePacks defaultPackSizes ⟨"POST", "application/json", some 2147483648⟩ =
        (Response.failure 400, defaultPackSizes)) ∧
    ((0 : Int) < 2147483648 → (2147483648 : Int) ≤ MaxInt32 →
      (CalculatePacks defaultPackSizes ⟨"POST", "application/json", some 2147483648⟩).1 =
          respond (getOptimalPackDistribution 2147483648 defaultPackSizes) ∨
      (CalculatePacks defaultPackSizes ⟨"POST", "application/json", some 2147483648⟩).1 =
          respond (greedyPackFallback 2147483648 defaultPackSizes)) :=
  calculatePacks_quantity_check defaultPackSizes ⟨"POST", "application/json", some 2147483648⟩
    2147483648 rfl rfl rfl

/-- C8: the threshold is `MaxDPQuantity = 100000`, inclusive: for a valid
quantity `≤ 100000` the response of a calculate request is the outcome of
`getOptimalPackDistribution` on the quantity and the registry, for a valid
quantity `≥ 100001` it is the outcome of `greedyPackFallback`. -/
theorem calculatePacks_routing (registry : List Int) (r : CalcRequest) (quantity : Int)
    (hm : r.method = "POST") (hc : r.contentType = "application/json")
    (hb : r.body = some quantity) (hq : 0 < quantity) (hqM : quantity ≤ MaxInt32) :
    MaxDPQuantity = 100000 ∧
    (quantity ≤ 100000 →
      (CalculatePacks registry r).1 = respond (getOptimalPackDistribution quantity registry)) ∧
    (100001 ≤ quantity →
      (CalculatePacks registry r).1 = respond (greedyPackFallback quantity registry)) := by
  rw [calculatePacks_valid registry r quantity hm hc hb]
  have h0 : ¬ quantity ≤ 0 := by omega
  have h1 : ¬ quantity > MaxInt32 := by omega
  have hD : MaxDPQuantity = 100000 := rfl
  rw [if_neg h0, if_neg h1]
  refine ⟨rfl, fun h => ?_, fun h => ?_⟩
  · rw [if_pos (by omega)]
  · rw [if_neg (by omega)]

/-- Witness of `calculatePacks_routing`: quantity 100001 sent to the default
registry. -/
theorem calculatePacks_routing_witness :
    MaxDPQuantity = 100000 ∧
    ((100001 : Int) ≤ 100000 →
      (CalculatePacks defaultPackSizes ⟨"POST", "application/json", some 100001⟩).1 =
        respond (getOptimalPackDistribution 100001 defaultPackSizes)) ∧
    ((100001 : Int) ≤ 100001 →
      (CalculatePacks defaultPackSizes ⟨"POST", "application/json", some 100001⟩).1 =
        respond (greedyPackFallback 100001 defaultPackSizes)) :=
  calculatePacks_routing defaultPackSizes ⟨"POST", "application/json", some 100001⟩ 100001
    rfl rfl rfl (by decide) (by decide)

/-- The exact solver on an empty pack-size list does not reach its NoSolution
return, it panics on `packs[0]`; the greedy fallback, which guards its index
with `len(sortedPacks) > 0`, returns the empty distribution with count 0. -/
theorem optimal_empty_panics (quantity : Int) :
    getOptimalPackDistribution quantity [] = none ∧
    getOptimalPackDistribution quantity [] ≠ some (none, MaxInt32) ∧
    greedyPackFallback quantity [] = some (some [], 0) :=
  ⟨rfl, by simp [getOptimalPackDistribution, getOptimalPackDistributionWith, sortInts_nil], rfl⟩

/-! ## A quantity that is itself a pack size -/

/-- Inside the bounds, the exact solver answers a quantity that is a pack size
with one pack of that size. -/
theorem optimal_exact_size (b : Bool) (q : Int) (packs : List Int)
    (hq : 0 < q) (hqM : q < MaxInt32) (hmem : q ∈ packs)
    (hp : ∀ s ∈ packs, 0 < s ∧ s < 4611686018427387904) :
    getOptimalPackDistributionWith b q packs = some (some [(q, 1)], 1) := by
  have hne : packs ≠ [] := List.ne_nil_of_mem hmem
  obtain ⟨m, t, i, d, n, hm, hmin, inv, cl, i1, i2, a1, a2, a3, a4, hres⟩ :=
    optimal_first b q packs hq hqM hne hp ⟨q, hmem, by omega⟩
  have hm0 := (hp m hm).1
  have hn : (((q + m + 1).toNat : Nat) : Int) = q + m + 1 := by omega
  have hMax : MaxInt32 = 2147483647 := rfl
  obtain ⟨_, d', e1, e2⟩ := table_le_of_list packs (q + m) _ hn (fun s hs => (hp s hs).1)
    t inv cl [q] (fun x hx => by simp only [List.mem_singleton] at hx; subst hx; exact hmem)
    (by simp; omega) (by simp; omega)
  simp only [List.sum_cons, List.sum_nil, add_zero, List.length_cons, List.length_nil,
    Nat.zero_add, Nat.cast_one] at e1 e2
  have hi : i = q := by
    by_contra hc
    have := a4 q (le_refl q) (by omega)
    rw [e1] at this
    simp only [Option.some.injEq] at this
    omega
  subst hi
  rw [e1] at a1
  simp only [Option.some.injEq] at a1
  subst a1
  obtain ⟨n0, _, g, _⟩ := entry_good packs _ t inv i.toNat d' d e1 a2 a3
  have hi' : ((i.toNat : Nat) : Int) = i := by omega
  rw [hi'] at g
  have hlen := countSum_ge_length d (fun kv hkv => (g.entries kv hkv).2)
  have hd1 : d' = 1 := by
    by_contra hc
    have hz : d' = 0 := by omega
    have hcount := g.count
    rw [hz] at hcount
    have hnil : d = [] := by
      apply List.eq_nil_of_length_eq_zero
      omega
    have htotal := g.total
    rw [hnil] at htotal
    simp [achieved] at htotal
    omega
  subst hd1
  rw [hres, goodDist_count_one packs d i g]

theorem greedy_fold_zero (l : List Int) (d : GoMap) (hl : ∀ s ∈ l, 0 < s) :
    l.foldlM greedyStep (d, 0) = some (d, 0) := by
  induction l with
  | nil => rfl
  | cons s rest ih =>
    have hs := hl s (by simp)
    have : greedyStep (d, 0) s = some (d, 0) := by
      unfold greedyStep
      rw [goDiv_pos 0 s (le_refl 0) hs]
      simp
    rw [List.foldlM_cons, this]
    simpa using ih (fun x hx => hl x (List.mem_cons_of_mem _ hx))

theorem greedy_fold_exact (q : Int) (hq : 0 < q) (l : List Int) (hl : ∀ s ∈ l, 0 < s)
    (hsorted : l.Sorted (· ≥ ·)) (hmem : q ∈ l) :
    l.foldlM greedyStep ([], q) = some ([(q, 1)], 0) := by
  induction l with
  | nil => simp at hmem
  | cons a rest ih =>
    have ha := hl a (by simp)
    have hrest : ∀ s ∈ rest, 0 < s := fun x hx => hl x (List.mem_cons_of_mem _ hx)
    by_cases haq : a = q
    · subst haq
      have : greedyStep ([], a) a = some ([(a, 1)], 0) := by
        unfold greedyStep
        rw [goDiv_pos a a (by omega) ha]
        have : a / a = 1 := Int.ediv_self (by omega)
        simp [this, mapSet]
      rw [List.foldlM_cons, this]
      simpa using greedy_fold_zero rest [(a, 1)] hrest
    · have hq' : q ∈ rest := by
        rcases List.mem_cons.1 hmem with e | e
        · exact absurd e.symm haq
        · exact e
      have hge : a ≥ q := (List.sorted_cons.1 hsorted).1 q hq'
      have : greedyStep ([], q) a = some ([], q) := by
        unfold greedyStep
        rw [goDiv_pos q a (by omega) ha]
        have : q / a = 0 := Int.ediv_eq_zero_of_lt (by omega) (by omega)
        simp [this]
      rw [List.foldlM_cons, this]
      simpa using ih hrest (List.sorted_cons.1 hsorted).2 hq'

/-- The greedy fallback answers a quantity that is a pack size with one pack
of that size. -/
theorem greedy_exact_size (q : Int) (packs : List Int) (hq : 0 < q) (hmem : q ∈ packs)
    (hp : ∀ s ∈ packs, 0 < s) :
    greedyPackFallback q packs = some (some [(q, 1)], 1) := by
  have hfold := greedy_fold_exact q hq (reverseSort packs)
    (fun s hs => hp s ((reverseSort_mem packs s).1 hs))
    (List.sorted_insertionSort _ packs) ((reverseSort_mem packs q).2 hmem)
  unfold greedyPackFallback
  simp only
  rw [hfold]
  simp only [greedyTopUp]
  cases (reverseSort packs).getLast? with
  | none => simp
  | some x => simp

/-- C9 (amended): for every registry of positive pack sizes and every valid
quantity that is itself one of the pack sizes, a calculate request is answered
with exactly the distribution `{quantity: 1}` and total pack count 1: on the
greedy path (`quantity > MaxDPQuantity`) with no further condition, on the
exact path (`quantity ≤ MaxDPQuantity`) when every pack size is below `2^62`.
Distinctness of the sizes is not needed. -/
theorem calculatePacks_single_pack (registry : List Int) (r : CalcRequest) (quantity : Int)
    (hm : r.method = "POST") (hc : r.contentType = "application/json")
    (hb : r.body = some quantity) (hq : 0 < quantity) (hqM : quantity ≤ MaxInt32)
    (hmem : quantity ∈ registry)
    (hp : ∀ s ∈ registry, 0 < s)
    (hexact : quantity ≤ MaxDPQuantity → ∀ s ∈ registry, s < 4611686018427387904) :
    (CalculatePacks registry r).1 = Response.packs (some [(quantity, 1)]) 1 ∧
    (quantity ≤ MaxDPQuantity →
      getOptimalPackDistribution quantity registry = some (some [(quantity, 1)], 1)) ∧
    (MaxDPQuantity < quantity →
      greedyPackFallback quantity registry = some (some [(quantity, 1)], 1)) := by
  have hD : MaxDPQuantity = 100000 := rfl
  have hMax : MaxInt32 = 2147483647 := rfl
  have hopt : quantity ≤ MaxDPQuantity →
      getOptimalPackDistribution quantity registry = some (some [(quantity, 1)], 1) :=
    fun h => optimal_exact_size _ quantity registry hq (by omega) hmem
      (fun s hs => ⟨hp s hs, hexact h s hs⟩)
  have hgr : MaxDPQuantity < quantity →
      greedyPackFallback quantity registry = some (some [(quantity, 1)], 1) :=
    fun _ => greedy_exact_size quantity registry hq hmem hp
  refine ⟨?_, hopt, hgr⟩
  rw [calculatePacks_valid registry r quantity hm hc hb]
  rw [if_neg (by omega), if_neg (by omega)]
  by_cases h : quantity ≤ MaxDPQuantity
  · rw [if_pos h, hopt h]
    rfl
  · rw [if_neg h, hgr (by omega)]
    rfl

/-- Witness of `calculatePacks_single_pack` on both paths: quantity 250 sent to
the default registry (exact path), and quantity 200000 sent to a registry that
holds the sizes 250, 200000 and `2^63 - 1` (greedy path, a size above
`2^62`). -/
theorem calculatePacks_single_pack_witness :
    ((CalculatePacks defaultPackSizes ⟨"POST", "application/json", some 250⟩).1 =
        Response.packs (some [(250, 1)]) 1 ∧
      ((250 : Int) ≤ MaxDPQuantity →
        getOptimalPackDistribution 250 defaultPackSizes = some (some [(250, 1)], 1)) ∧
      (MaxDPQuantity < (250 : Int) →
        greedyPackFallback 250 defaultPackSizes = some (some [(250, 1)], 1))) ∧
    ((CalculatePacks [250, 200000, 9223372036854775807]
          ⟨"POST", "application/json", some 200000⟩).1 =
        Response.packs (some [(200000, 1)]) 1 ∧
      ((200000 : Int) ≤ MaxDPQuantity →
        getOptimalPackDistribution 200000 [250, 200000, 9223372036854775807]
          = some (some [(200000, 1)], 1)) ∧
      (MaxDPQuantity < (200000 : Int) →
        greedyPackFallback 200000 [250, 200000, 9223372036854775807]
          = some (some [(200000, 1)], 1))) :=
  ⟨calculatePacks_single_pack defaultPackSizes ⟨"POST", "application/json", some 250⟩ 250
      rfl rfl rfl (by decide) (by decide) (by decide) (by decide) (by decide),
    calculatePacks_single_pack [250, 200000, 9223372036854775807]
      ⟨"POST", "application/json", some 200000⟩ 200000
      rfl rfl rfl (by decide) (by decide) (by decide) (by decide) (by decide)⟩

/-- C9 as stated fails: with the registry holding the distinct positive sizes
1 and `2^63 - 1`, the calculate request for quantity 1 (a pack size) gets no
distribution: the exact solver panics on a negative table index. -/
theorem calculatePacks_single_pack_counterexample :
    (CalculatePacks [1, 9223372036854775807] ⟨"POST", "application/json", some 1⟩).1 =
      Response.crashed ∧
    getOptimalPackDistribution 1 [1, 9223372036854775807] = none := by
  decide

/-! ## Independence of the order of the pack sizes -/

theorem sortInts_perm (p1 p2 : List Int) (h : p1.Perm p2) : sortInts p1 = sortInts p2 := by
  have h1 : (sortInts p1).Perm (sortInts p2) :=
    ((List.perm_insertionSort _ p1).trans h).trans (List.perm_insertionSort _ p2).symm
  exact List.eq_of_perm_of_sorted h1 (List.sorted_insertionSort (· ≤ ·) p1)
    (List.sorted_insertionSort (· ≤ ·) p2)

theorem reverseSort_perm (p1 p2 : List Int) (h : p1.Perm p2) :
    reverseSort p1 = reverseSort p2 := by
  have h1 : (reverseSort p1).Perm (reverseSort p2) :=
    ((List.perm_insertionSort _ p1).trans h).trans (List.perm_insertionSort _ p2).symm
  exact List.eq_of_perm_of_sorted h1 (List.sorted_insertionSort (· ≥ ·) p1)
    (List.sorted_insertionSort (· ≥ ·) p2)

/-- C11: for every quantity and any two lists of pack sizes that are
permutations of each other, `getOptimalPackDistribution` gives the same
outcome (distribution and total) for both lists, and so does
`greedyPackFallback`.  Positivity and distinctness of the sizes are not
needed. -/
theorem solvers_order_independent (quantity : Int) (packs1 packs2 : List Int)
    (h : packs1.Perm packs2) :
    getOptimalPackDistribution quantity packs1 = getOptimalPackDistribution quantity packs2 ∧
    greedyPackFallback quantity packs1 = greedyPackFallback quantity packs2 := by
  constructor
  · unfold getOptimalPackDistribution getOptimalPackDistributionWith
    rw [sortInts_perm packs1 packs2 h]
  · unfold greedyPackFallback
    rw [reverseSort_perm packs1 packs2 h]

/-- Witness of `solvers_order_independent` at quantity 6 and the lists
5, 3 and 3, 5, where the exact solver returns two packs of 3 and the greedy
fallback one pack of 5 and one of 3. -/
theorem solvers_order_independent_witness :
    getOptimalPackDistribution 6 [5, 3] = some (some [(3, 2)], 2) ∧
    greedyPackFallback 6 [5, 3] = some (some [(5, 1), (3, 1)], 2) ∧
    getOptimalPackDistribution 6 [5, 3] = getOptimalPackDistribution 6 [3, 5] ∧
    greedyPackFallback 6 [5, 3] = greedyPackFallback 6 [3, 5] :=
  ⟨by decide, by decide, solvers_order_independent 6 [5, 3] [3, 5] (List.Perm.swap 3 5 [])⟩

/-! ## The registry across calculate requests -/

/-- C13, evaluated on the code: after the update with sizes 3, 5 the registry
reads 5, 3; serving the calculate request for quantity 6 (exact path) leaves
it reading 3, 5, because `sort.Ints` sorts the shared slice in place.  A
request on the greedy path, whose `reverseSort` sorts a copy, leaves the
registry as it was. -/
theorem calculatePacks_reorders_registry :
    (SetPackSizes defaultPackSizes
      ⟨"POST", "application/json", AllowedOrigin, "Bearer " ++ AuthToken, some [3, 5]⟩).2
      = [5, 3] ∧
    CalculatePacks [5, 3] ⟨"POST", "application/json", some 6⟩
      = (Response.packs (some [(3, 2)]) 2, [3, 5]) ∧
    (CalculatePacks [5, 3] ⟨"POST", "application/json", some 100001⟩).2 = [5, 3] := by
  decide

/-! ## The greedy fallback on multiples of the largest size -/

theorem reverseSort_head (packs : List Int) (L : Int) (hL : L ∈ packs)
    (hmax : ∀ s ∈ packs, s ≤ L) : ∃ rest, reverseSort packs = L :: rest := by
  have hsorted : (reverseSort packs).Sorted (· ≥ ·) := List.sorted_insertionSort _ packs
  have hL' := (reverseSort_mem packs L).2 hL
  cases hr : reverseSort packs with
  | nil => rw [hr] at hL'; simp at hL'
  | cons a rest =>
    rw [hr] at hL' hsorted
    have ha : a ≤ L := hmax a ((reverseSort_mem packs a).1 (by rw [hr]; simp))
    have : L ≤ a := by
      rcases List.mem_cons.1 hL' with e | e
      · omega
      · exact (List.sorted_cons.1 hsorted).1 L e
    have e : a = L := by omega
    subst e
    exact ⟨rest, rfl⟩

/-- C17: for every non-empty list of positive pack sizes with largest size `L`
and every quantity > 0 that is a multiple of `L`, `greedyPackFallback` returns
exactly the distribution `{L: quantity / L}` with total pack count
`quantity / L`. -/
theorem greedy_multiple_of_largest (quantity : Int) (packs : List Int) (L : Int)
    (hq : 0 < quantity) (hp : ∀ s ∈ packs, 0 < s) (hL : L ∈ packs)
    (hmax : ∀ s ∈ packs, s ≤ L) (hmul : quantity % L = 0) :
    greedyPackFallback quantity packs = some (some [(L, quantity / L)], quantity / L) := by
  obtain ⟨rest, hr⟩ := reverseSort_head packs L hL hmax
  have hL0 : 0 < L := hp L hL
  have hdvd : L ∣ quantity := Int.dvd_of_emod_eq_zero hmul
  have hmulc : L * (quantity / L) = quantity := Int.mul_ediv_cancel' hdvd
  have hk : 0 < quantity / L := by
    by_contra hc
    have h1 : quantity / L ≤ 0 := by omega
    have h2 : L * (quantity / L) ≤ 0 := Int.mul_nonpos_of_nonneg_of_nonpos (by omega) h1
    omega
  have hstep : greedyStep ([], quantity) L = some ([(L, quantity / L)], 0) := by
    unfold greedyStep
    rw [goDiv_pos quantity L (by omega) hL0]
    simp only [gt_iff_lt, hk, if_true, mapSet, hmulc, sub_self]
  have hrest : ∀ s ∈ rest, 0 < s := by
    intro s hs
    exact hp s ((reverseSort_mem packs s).1 (by rw [hr]; exact List.mem_cons_of_mem _ hs))
  have hfold : (reverseSort packs).foldlM greedyStep ([], quantity)
      = some ([(L, quantity / L)], 0) := by
    rw [hr, List.foldlM_cons, hstep]
    simpa using greedy_fold_zero rest [(L, quantity / L)] hrest
  unfold greedyPackFallback
  simp only
  rw [hfold]
  simp only [greedyTopUp]
  cases (reverseSort packs).getLast? with
  | none => simp
  | some x => simp

/-- Witness of `greedy_multiple_of_largest`: the scenario of quantity
100000000 with the default pack sizes, `{5000: 20000}` and total 20000. -/
theorem greedy_multiple_of_largest_witness :
    greedyPackFallback 100000000 defaultPackSizes
      = some (some [(5000, 100000000 / 5000)], 100000000 / 5000) ∧
    (100000000 : Int) / 5000 = 20000 :=
  ⟨greedy_multiple_of_largest 100000000 defaultPackSizes 5000 (by decide) (by decide)
    (by decide) (by decide) (by decide), by decide⟩

/-! ## The greedy fallback against the exact solver -/

/-- C18: the greedy fallback is not overpack-optimal: for quantity 6 and the
distinct positive pack sizes 3, 5 it returns one pack of 5 and one of 3,
achieved total 8, while `getOptimalPackDistribution` returns two packs of 3,
achieved total 6. -/
theorem greedy_not_overpack_optimal :
    ∃ (quantity : Int) (packs : List Int) (dg : GoMap) (ng : Int) (de : GoMap) (ne : Int),
      0 < quantity ∧ packs ≠ [] ∧ packs.Nodup ∧ (∀ s ∈ packs, 0 < s) ∧
      greedyPackFallback quantity packs = some (some dg, ng) ∧
      getOptimalPackDistribution quantity packs = some (some de, ne) ∧
      achieved de < achieved dg ∧
      quantity = 6 ∧ packs = [3, 5] ∧ dg = [(5, 1), (3, 1)] ∧ de = [(3, 2)] ∧
      achieved dg = 8 ∧ achieved de = 6 :=
  ⟨6, [3, 5], [(5, 1), (3, 1)], 2, [(3, 2)], 2, by decide, by decide, by decide, by decide,
    by decide, by decide, by decide, rfl, rfl, rfl, rfl, by decide, by decide⟩

/-! ## Returned totals and well-formed distributions -/

theorem greedy_returned_count (q : Int) (packs : List Int) (d : GoMap) (n : Int)
    (h : greedyPackFallback q packs = some (some d, n)) : countSum d = n := by
  unfold greedyPackFallback at h
  simp only at h
  cases hf : (reverseSort packs).foldlM greedyStep ([], q) with
  | none => rw [hf] at h; simp at h
  | some st =>
    rw [hf] at h
    simp only [Option.some.injEq, Prod.mk.injEq, foldl_count_eq, zero_add] at h
    rw [← h.1, ← h.2]

theorem optimal_returned_good (q : Int) (packs : List Int) (d : GoMap) (n : Int)
    (hq : 0 < q) (hq64 : IsInt64 q) (hp : ∀ s ∈ packs, 0 < s ∧ IsInt64 s)
    (h : getOptimalPackDistribution q packs = some (some d, n)) :
    GoodDist packs d (achieved d) n := by
  obtain ⟨m, t, i, _, _, _, inv, _, i1, _, a1, a2, a3, _⟩ :=
    optimal_returned (decide (q < 500)) q packs d n hq hq64.2
      (fun s hs => ⟨(hp s hs).1, (hp s hs).2.2⟩) h
  obtain ⟨_, _, g, _⟩ := entry_good packs _ t inv i.toNat n d a1 a2 a3
  rw [g.total]
  exact g

theorem greedyTopUp_good (packs : List Int) (q : Int) (dist : GoMap) (rem : Int)
    (inv : GreedyInv packs q (dist, rem)) :
    ((greedyTopUp (reverseSort packs) dist rem).map Prod.fst).Nodup ∧
    ∀ kv ∈ greedyTopUp (reverseSort packs) dist rem, kv.1 ∈ packs ∧ 1 ≤ kv.2 := by
  have hold : ∀ kv ∈ dist, kv.1 ∈ packs ∧ 1 ≤ kv.2 :=
    fun kv hkv => ⟨(inv.entries kv hkv).1, (inv.entries kv hkv).2.1⟩
  unfold greedyTopUp
  cases hl : (reverseSort packs).getLast? with
  | none => exact ⟨inv.nodup, hold⟩
  | some smallest =>
    simp only
    by_cases hr : rem > 0
    · rw [if_pos hr]
      have hmem : smallest ∈ packs := by
        obtain ⟨ys, hys⟩ := List.getLast?_eq_some_iff.1 hl
        exact (reverseSort_mem packs smallest).1 (by rw [hys]; simp)
      have hget : 0 ≤ mapGet dist smallest := by
        by_cases hm : smallest ∈ dist.map Prod.fst
        · have := (inv.entries _ (mapGet_mem dist smallest hm)).2.1
          simp only at this
          omega
        · rw [mapGet_of_not_mem dist smallest hm]
      refine ⟨nodup_keys_mapSet _ _ _ inv.nodup, ?_⟩
      intro kv hkv
      rcases mem_mapSet _ _ _ _ hkv with e | e
      · subst e
        exact ⟨hmem, by simp only; omega⟩
      · exact hold kv e
    · rw [if_neg hr]
      exact ⟨inv.nodup, hold⟩

/-- C14: for every quantity > 0 and every list of positive pack sizes (Go
`int` values), whenever `getOptimalPackDistribution` or `greedyPackFallback`
returns a distribution, the total pack count returned with it is the sum of
the counts stored in the distribution; the greedy fallback always returns
one.  Non-emptiness and distinctness of the sizes are not needed. -/
theorem solvers_total_is_count_sum (quantity : Int) (packs : List Int)
    (hq : 0 < quantity) (hq64 : IsInt64 quantity) (hp : ∀ s ∈ packs, 0 < s ∧ IsInt64 s) :
    (∀ d n, getOptimalPackDistribution quantity packs = some (some d, n) → countSum d = n) ∧
    (∀ d n, greedyPackFallback quantity packs = some (some d, n) → countSum d = n) ∧
    ∃ d n, greedyPackFallback quantity packs = some (some d, n) := by
  refine ⟨fun d n h => (optimal_returned_good quantity packs d n hq hq64 hp h).count,
    fun d n h => greedy_returned_count quantity packs d n h, ?_⟩
  obtain ⟨dist, rem, _, _, hres⟩ := greedy_run quantity packs (by omega) (fun s hs => (hp s hs).1)
  exact ⟨_, _, hres⟩

/-- Witness of `solvers_total_is_count_sum` at quantity 6 and sizes 3, 5. -/
theorem solvers_total_is_count_sum_witness :
    getOptimalPackDistribution 6 [3, 5] = some (some [(3, 2)], 2) ∧
    greedyPackFallback 6 [3, 5] = some (some [(5, 1), (3, 1)], 2) ∧
    (∀ d n, getOptimalPackDistribution 6 [3, 5] = some (some d, n) → countSum d = n) ∧
    (∀ d n, greedyPackFallback 6 [3, 5] = some (some d, n) → countSum d = n) ∧
    ∃ d n, greedyPackFallback 6 [3, 5] = some (some d, n) :=
  ⟨by decide, by decide,
    solvers_total_is_count_sum 6 [3, 5] (by decide) (by decide) (by decide)⟩

/-- C15: for every quantity > 0 and every list of positive pack sizes (Go
`int` values), every distribution returned by `getOptimalPackDistribution` or
`greedyPackFallback` is well formed: its keys are pairwise different, each key
is one of the supplied pack sizes and each stored count is at least 1.
Non-emptiness and distinctness of the sizes are not needed. -/
theorem solvers_distribution_well_formed (quantity : Int) (packs : List Int)
    (hq : 0 < quantity) (hq64 : IsInt64 quantity) (hp : ∀ s ∈ packs, 0 < s ∧ IsInt64 s) :
    (∀ d n, getOptimalPackDistribution quantity packs = some (some d, n) →
      (d.map Prod.fst).Nodup ∧ ∀ kv ∈ d, kv.1 ∈ packs ∧ 1 ≤ kv.2) ∧
    (∀ d n, greedyPackFallback quantity packs = some (some d, n) →
      (d.map Prod.fst).Nodup ∧ ∀ kv ∈ d, kv.1 ∈ packs ∧ 1 ≤ kv.2) := by
  constructor
  · intro d n h
    have g := optimal_returned_good quantity packs d n hq hq64 hp h
    exact ⟨g.nodup, g.entries⟩
  · intro d n h
    obtain ⟨dist, rem, inv, _, hres⟩ := greedy_run quantity packs (by omega)
      (fun s hs => (hp s hs).1)
    rw [hres] at h
    simp only [Option.some.injEq, Prod.mk.injEq] at h
    rw [← h.1]
    exact greedyTopUp_good packs quantity dist rem inv

/-- Witness of `solvers_distribution_well_formed` at quantity 6 and sizes
3, 5. -/
theorem solvers_distribution_well_formed_witness :
    getOptimalPackDistribution 6 [3, 5] = some (some [(3, 2)], 2) ∧
    greedyPackFallback 6 [3, 5] = some (some [(5, 1), (3, 1)], 2) ∧
    (∀ d n, getOptimalPackDistribution 6 [3, 5] = some (some d, n) →
      (d.map Prod.fst).Nodup ∧ ∀ kv ∈ d, kv.1 ∈ ([3, 5] : List Int) ∧ 1 ≤ kv.2) ∧
    (∀ d n, greedyPackFallback 6 [3, 5] = some (some d, n) →
      (d.map Prod.fst).Nodup ∧ ∀ kv ∈ d, kv.1 ∈ ([3, 5] : List Int) ∧ 1 ≤ kv.2) :=
  ⟨by decide, by decide,
    solvers_distribution_well_formed 6 [3, 5] (by decide) (by decide) (by decide)⟩

/-! ## The selection policy -/

theorem readAt_of_get {α : Type} (l : List α) (i : Int) (a : α) (h0 : 0 ≤ i)
    (h : l[i.toNat]? = some a) : readAt l i = some a := by
  unfold readAt
  rw [if_neg (by omega)]
  exact h

/-- Whatever distribution the exact solver returns is the entry of the first
reached index at or above the quantity in the table that `buildTables` makes
from the sorted sizes. -/
theorem optimal_returned_table (b : Bool) (q : Int) (packs : List Int) (d : GoMap) (n : Int)
    (hq : 0 < q) (hq2 : q < 9223372036854775808)
    (hp : ∀ s ∈ packs, 0 < s ∧ s < 9223372036854775808)
    (h : getOptimalPackDistributionWith b q packs = some (some d, n)) :
    ∃ (m : Int) (rest : List Int) (t : Tables) (i : Int),
      sortInts packs = m :: rest ∧ m ∈ packs ∧ (∀ s ∈ packs, m ≤ s) ∧
      wrapInt (q + m) = q + m ∧ buildTables (m :: rest) (q + m) = some t ∧
      q + m + 1 < 9223372036854775808 ∧
      TableInv packs (q + m + 1).toNat t ∧ Closed packs (q + m) (q + m + 1).toNat t ∧
      q ≤ i ∧ i ≤ q + m ∧ t.1[i.toNat]? = some n ∧ n ≠ MaxInt32 ∧ t.2[i.toNat]? = some d ∧
      (∀ j : Int, q ≤ j → j < i → t.1[j.toNat]? = some MaxInt32) := by
  by_cases hne : packs = []
  · subst hne
    simp [getOptimalPackDistributionWith, sortInts_nil] at h
  obtain ⟨m, rest, hs, hm, hmin, hmem⟩ := sortInts_cases packs hne
  unfold getOptimalPackDistributionWith at h
  rw [hs] at h
  simp only at h
  cases hb : buildTables (m :: rest) (wrapInt (q + m)) with
  | none => rw [hb] at h; simp at h
  | some t =>
    rw [hb] at h
    simp only at h
    cases hf : (selRange q (wrapInt (q + m))).foldlM (selStep b q t) selInit with
    | none => rw [hf] at h; simp at h
    | some st =>
      rw [hf] at h
      simp only [Option.some.injEq] at h
      have hp' : ∀ s ∈ m :: rest, 0 < s ∧ s < 9223372036854775808 :=
        fun s hs' => hp s ((hmem s).1 hs')
      obtain ⟨c0, c1, c2, c3⟩ := buildTables_spec (m :: rest) (wrapInt (q + m))
        (wrapInt_range _).1 (wrapInt_range _).2 hp' t hb
      have hm0 := hp m hm
      have hw : wrapInt (q + m) = q + m := by
        by_cases hov : q + m < 9223372036854775808
        · exact wrapInt_of_range _ (by omega) hov
        · have := wrapInt_overflow (q + m) (by omega) (by omega)
          omega
      rw [hw] at c0 c1 c2 c3 hf hb
      have inv := tableInv_congr _ _ hmem _ _ c2
      have hn : (((q + m + 1).toNat : Nat) : Int) = q + m + 1 := by omega
      obtain ⟨st', hst', hcase⟩ := selScan packs b q (q + m) _ t inv hn (by omega)
        (m + 1).toNat (by omega)
      have hrange : selRange q (q + m)
          = (List.range (m + 1).toNat).map (fun (j : Nat) => q + (j : Int)) := by
        unfold selRange
        have : (q + m - q + 1).toNat = (m + 1).toNat := by omega
        rw [this]
      rw [hrange, hst'] at hf
      simp only [Option.some.injEq] at hf
      subst hf
      unfold selFinish at h
      split at h
      · simp at h
      · rename_i hmt
        simp only [Prod.mk.injEq, Option.some.injEq] at h
        rcases hcase with ⟨e, _⟩ | ⟨j0, d0, pd0, hj0, a1, a2, a3, a4, a5, a6, a7⟩
        · subst e
          exact absurd rfl hmt
        · refine ⟨m, rest, t, q + (j0 : Int), hs, hm, hmin, hw, hb, c1, inv,
            closed_congr _ _ hmem _ _ _ c3, by omega, by omega, ?_, ?_, ?_, ?_⟩
          · rw [← h.2, a6]; exact a1
          · rw [← h.2, a6]; exact a2
          · rw [← h.1, a7]; exact a3
          · intro j hj1 hj2
            have := a4 (j - q).toNat (by omega)
            have e : (q + (((j - q).toNat : Nat) : Int)).toNat = j.toNat := by omega
            rw [e] at this
            exact this

theorem selRange_before (q j : Int) :
    selRange q (j - 1) = (List.range (j - q).toNat).map (fun (k : Nat) => q + (k : Int)) := by
  unfold selRange
  have : (j - 1 - q + 1).toNat = (j - q).toNat := by omega
  rw [this]

theorem overpacks_increasing (q M : Int) :
    ((selRange q M).map (fun i => i - q)).Sorted (· < ·) := by
  unfold selRange
  rw [List.map_map]
  have : ((fun i => i - q) ∘ fun (k : Nat) => q + (k : Int)) = fun (k : Nat) => (k : Int) := by
    funext k
    simp
  rw [this]
  unfold List.Sorted
  rw [List.pairwise_map]
  exact (List.pairwise_lt_range _).imp (fun h => by omega)

/-- Inside the bounds the exact solver returns, whatever the outcome of the
test `quantity < 500`, the entry of the first reached index of the table built
from the sorted sizes, and that index lies less than one smallest pack above
the quantity. -/
theorem optimal_first_table (q : Int) (packs : List Int)
    (hq : 0 < q) (hqM : q < MaxInt32) (hne : packs ≠ [])
    (hp : ∀ s ∈ packs, 0 < s ∧ s < 4611686018427387904)
    (hsmall : ∃ s ∈ packs, s ≤ MaxInt32) :
    ∃ (m : Int) (rest : List Int) (t : Tables) (i : Int) (d : GoMap) (n : Int),
      sortInts packs = m :: rest ∧ m ∈ packs ∧ (∀ s ∈ packs, m ≤ s) ∧
      wrapInt (q + m) = q + m ∧ buildTables (m :: rest) (q + m) = some t ∧
      TableInv packs (q + m + 1).toNat t ∧ Closed packs (q + m) (q + m + 1).toNat t ∧
      q ≤ i ∧ i < q + m ∧ t.1[i.toNat]? = some n ∧ n ≠ MaxInt32 ∧ t.2[i.toNat]? = some d ∧
      (∀ j : Int, q ≤ j → j < i → t.1[j.toNat]? = some MaxInt32) ∧
      ∀ b, getOptimalPackDistributionWith b q packs = some (some d, n) := by
  have hMax : MaxInt32 = 2147483647 := rfl
  have hp64 : ∀ s ∈ packs, 0 < s ∧ s < 9223372036854775808 := by
    intro s hs
    have := hp s hs
    omega
  obtain ⟨_, _, _, d, n, _, _, _, _, _, _, _, _, _, _, hres⟩ :=
    optimal_first true q packs hq hqM hne hp hsmall
  obtain ⟨m, rest, t, i, hs, hm, hmin, hw, hb, hM, inv, cl, i1, i2, a1, a2, a3, a4⟩ :=
    optimal_returned_table true q packs d n hq (by omega) hp64 hres
  have hm0 := (hp m hm).1
  have hn : (((q + m + 1).toNat : Nat) : Int) = q + m + 1 := by omega
  -- a multiple of the smallest size is reached inside the window
  have hlt : i < q + m := by
    obtain ⟨c, k1, k2, k3, k4⟩ := multiple_in_window q m hq hm0
    have hc : ((c.toNat : Nat) : Int) = c := by omega
    have hreach := table_le_of_list packs (q + m) (q + m + 1).toNat hn
      (fun s hs' => (hp s hs').1) t inv cl (List.replicate c.toNat m)
      (fun x hx => by rw [List.eq_of_mem_replicate hx]; exact hm)
      (by rw [List.sum_replicate, nsmul_eq_mul, hc]; omega)
      (by rw [List.length_replicate]; omega)
    rw [List.sum_replicate, nsmul_eq_mul, List.length_replicate, hc] at hreach
    obtain ⟨_, dstar, hd1, hd2⟩ := hreach
    by_contra hge
    have := a4 (c * m) k3 (by omega)
    rw [hd1] at this
    simp only [Option.some.injEq] at this
    omega
  refine ⟨m, rest, t, i, d, n, hs, hm, hmin, hw, hb, inv, cl, i1, hlt, a1, a2, a3, a4, ?_⟩
  intro b
  obtain ⟨_, _, _, d', n', _, _, _, _, _, _, _, _, _, _, hres'⟩ :=
    optimal_first b q packs hq hqM hne hp hsmall
  obtain ⟨m', rest', t', i', hs', _, _, _, hb', _, _, _, j1, j2, b1, b2, b3, b4⟩ :=
    optimal_returned_table b q packs d' n' hq (by omega) hp64 hres'
  rw [hs] at hs'
  simp only [List.cons.injEq] at hs'
  obtain ⟨e1, e2⟩ := hs'
  subst e1 e2
  rw [hb] at hb'
  simp only [Option.some.injEq] at hb'
  subst hb'
  have hi : i' = i := by
    by_contra hne'
    rcases lt_or_gt_of_ne hne' with hlt' | hgt'
    · have := a4 i' j1 hlt'
      rw [b1] at this
      simp only [Option.some.injEq] at this
      exact b2 this
    · have := b4 i i1 hgt'
      rw [a1] at this
      simp only [Option.some.injEq] at this
      exact a2 this
  subst hi
  rw [a1] at b1
  rw [a3] at b3
  simp only [Option.some.injEq] at b1 b3
  subst b1 b3
  exact hres'

/-- C16 (amended): for every quantity with `0 < quantity < MaxInt32` and every
non-empty list of positive pack sizes below `2^62` whose smallest size is at
most `MaxInt32`, the overpacks of the scanned totals are strictly increasing,
the selection loop never takes its overpack-equality branch (for either
outcome of the test `quantity < 500`), the function returns the table entry of
the first reachable total at or above the quantity, and the variants with the
test replaced by `true` and by `false` return the same result. -/
theorem tie_break_never_used (quantity : Int) (packs : List Int)
    (hq : 0 < quantity) (hqM : quantity < MaxInt32) (hne : packs ≠ [])
    (hp : ∀ s ∈ packs, 0 < s ∧ s < 4611686018427387904)
    (hsmall : ∃ s ∈ packs, s ≤ MaxInt32) :
    ∃ (m : Int) (rest : List Int) (t : Tables) (i : Int) (d : GoMap) (n : Int),
      sortInts packs = m :: rest ∧ wrapInt (quantity + m) = quantity + m ∧
      buildTables (m :: rest) (quantity + m) = some t ∧
      ((selRange quantity (quantity + m)).map (fun j => j - quantity)).Sorted (· < ·) ∧
      (∀ (b : Bool) (j : Int) (st : SelState), quantity ≤ j → j ≤ quantity + m →
        (selRange quantity (j - 1)).foldlM (selStep b quantity t) selInit = some st →
        ¬ tieTaken quantity t st j) ∧
      quantity ≤ i ∧ i ≤ quantity + m ∧
      (∃ Mu : Multiset Int, (∀ x ∈ Mu, x ∈ packs) ∧ Mu.sum = i) ∧
      (∀ Mu : Multiset Int, (∀ x ∈ Mu, x ∈ packs) → quantity ≤ Mu.sum → i ≤ Mu.sum) ∧
      readAt t.1 i = some n ∧ readAt t.2 i = some d ∧
      getOptimalPackDistribution quantity packs = some (some d, n) ∧
      getOptimalPackDistributionWith true quantity packs = some (some d, n) ∧
      getOptimalPackDistributionWith false quantity packs = some (some d, n) := by
  have hMax : MaxInt32 = 2147483647 := rfl
  obtain ⟨m, rest, t, i, d, n, hs, hm, hmin, hw, hb, inv, cl, i1, i2, a1, a2, a3, a4, hall⟩ :=
    optimal_first_table quantity packs hq hqM hne hp hsmall
  have hm0 := (hp m hm).1
  have hmM : m ≤ MaxInt32 := by
    obtain ⟨s, hs1, hs2⟩ := hsmall
    have := hmin s hs1
    omega
  have hn : (((quantity + m + 1).toNat : Nat) : Int) = quantity + m + 1 := by omega
  obtain ⟨_, _, g, ⟨L, l1, l2, _⟩⟩ := entry_good packs _ t inv i.toNat n d a1 a2 a3
  have hi : ((i.toNat : Nat) : Int) = i := by omega
  refine ⟨m, rest, t, i, d, n, hs, hw, hb, overpacks_increasing _ _, ?_, i1, by omega,
    ⟨(L : Multiset Int), fun x hx => l1 x (by simpa using hx), by
      rw [Multiset.sum_coe, l2, hi]⟩, ?_,
    readAt_of_get _ _ _ (by omega) a1, readAt_of_get _ _ _ (by omega) a3, hall _, hall true,
    hall false⟩
  · intro b j st j1 j2 hfold htie
    obtain ⟨dj, r1, r2, r3, r4⟩ := htie
    rw [selRange_before] at hfold
    obtain ⟨st', hst', hcase⟩ := selScan packs b quantity (quantity + m) _ t inv hn (by omega)
      (j - quantity).toNat (by omega)
    rw [hst'] at hfold
    simp only [Option.some.injEq] at hfold
    subst hfold
    rcases hcase with ⟨e, hunr⟩ | ⟨j0, d0, pd0, hj0, _, _, _, _, a5, _, _⟩
    · subst e
      simp only [selInit] at r4
      have := hunr (i - quantity).toNat (by omega) (by omega)
      have e : (quantity + (((i - quantity).toNat : Nat) : Int)).toNat = i.toNat := by omega
      rw [e, a1] at this
      simp only [Option.some.injEq] at this
      exact a2 this
    · omega
  · intro Mu hMu hge
    obtain ⟨L', m1, m2, _⟩ := multiset_as_list Mu
    rw [m2]
    rw [m2] at hge
    by_contra hlt
    have hL' : ∀ x ∈ L', x ∈ packs := fun x hx => hMu x ((m1 x).2 hx)
    have hshort := short_of_sum_lt L' quantity m hm0 hqM
      (fun x hx => hmin x (hL' x hx)) (by omega)
    obtain ⟨_, d', e1, e2⟩ := table_le_of_list packs (quantity + m) _ hn
      (fun s hs => (hp s hs).1) t inv cl L' hL' (by omega) hshort
    have := a4 L'.sum hge (by omega)
    rw [e1] at this
    simp only [Option.some.injEq] at this
    omega

/-- Witness of `tie_break_never_used` at quantity 6 and sizes 3, 5. -/
theorem tie_break_never_used_witness :
    getOptimalPackDistributionWith true 6 [3, 5] = some (some [(3, 2)], 2) ∧
    getOptimalPackDistributionWith false 6 [3, 5] = some (some [(3, 2)], 2) ∧
    ∃ (m : Int) (rest : List Int) (t : Tables) (i : Int) (d : GoMap) (n : Int),
      sortInts [3, 5] = m :: rest ∧ wrapInt (6 + m) = 6 + m ∧
      buildTables (m :: rest) (6 + m) = some t ∧
      ((selRange 6 (6 + m)).map (fun j => j - 6)).Sorted (· < ·) ∧
      (∀ (b : Bool) (j : Int) (st : SelState), 6 ≤ j → j ≤ 6 + m →
        (selRange 6 (j - 1)).foldlM (selStep b 6 t) selInit = some st →
        ¬ tieTaken 6 t st j) ∧
      6 ≤ i ∧ i ≤ 6 + m ∧
      (∃ Mu : Multiset Int, (∀ x ∈ Mu, x ∈ ([3, 5] : List Int)) ∧ Mu.sum = i) ∧
      (∀ Mu : Multiset Int, (∀ x ∈ Mu, x ∈ ([3, 5] : List Int)) → 6 ≤ Mu.sum → i ≤ Mu.sum) ∧
      readAt t.1 i = some n ∧ readAt t.2 i = some d ∧
      getOptimalPackDistribution 6 [3, 5] = some (some d, n) ∧
      getOptimalPackDistributionWith true 6 [3, 5] = some (some d, n) ∧
      getOptimalPackDistributionWith false 6 [3, 5] = some (some d, n) :=
  ⟨by decide, by decide,
    tie_break_never_used 6 [3, 5] (by decide) (by decide) (by decide) (by decide) (by decide)⟩

/-- C16 as stated fails: with quantity `2^31 - 1` and the single pack size 1
(smallest size at most `2^31 - 1`), the total `2^31 - 1` is the sum of
`2^31 - 1` unit packs, yet the function returns no table entry but NoSolution,
for either outcome of the test; with quantity 1 and pack sizes 1 and
`2^63 - 1` it panics. -/
theorem tie_break_never_used_counterexample :
    getOptimalPackDistribution 2147483647 [1] = some (none, MaxInt32) ∧
    getOptimalPackDistributionWith true 2147483647 [1] = some (none, MaxInt32) ∧
    getOptimalPackDistributionWith false 2147483647 [1] = some (none, MaxInt32) ∧
    (∃ Mu : Multiset Int, (∀ x ∈ Mu, x ∈ ([1] : List Int)) ∧ Mu.sum = 2147483647) ∧
    getOptimalPackDistribution 1 [1, 9223372036854775807] = none := by
  refine ⟨?_, optimal_unit_sentinel true, optimal_unit_sentinel false,
    ⟨Multiset.replicate 2147483647 1, ?_, ?_⟩, by decide⟩
  · unfold getOptimalPackDistribution
    exact optimal_unit_sentinel _
  · intro x hx
    rw [Multiset.eq_of_mem_replicate hx]
    simp
  · rw [Multiset.sum_replicate]
    simp

/-! ## The empty pack-size list -/

theorem setPackSizes_keeps_nonempty (registry : List Int) (r : SizesRequest)
    (h : registry ≠ []) : (SetPackSizes registry r).2 ≠ [] := by
  unfold SetPackSizes
  split
  · exact h
  · split
    · exact h
    · split
      · exact h
      · split
        · exact h
        · split
          · exact h
          · split
            · exact h
            · rename_i sizes _
              split
              · exact h
              · split
                · exact h
                · rename_i hlen _
                  simp only
                  intro e
                  cases hs : sizes with
                  | nil => rw [hs] at hlen; simp at hlen
                  | cons x rest =>
                    have hx : x ∈ uniqueAndSorted sizes :=
                      (uniqueAndSorted_mem sizes x).2 (by rw [hs]; simp)
                    rw [e] at hx
                    simp at hx

theorem sortInts_ne_nil (l : List Int) (h : l ≠ []) : sortInts l ≠ [] := by
  intro e
  have hperm : (sortInts l).Perm l := List.perm_insertionSort _ l
  rw [e] at hperm
  exact h (List.Perm.nil_eq hperm).symm

theorem calculatePacks_keeps_nonempty (registry : List Int) (r : CalcRequest)
    (h : registry ≠ []) : (CalculatePacks registry r).2 ≠ [] := by
  unfold CalculatePacks
  split
  · exact h
  · split
    · exact h
    · split
      · exact h
      · split
        · exact h
        · split
          · exact h
          · split
            · exact sortInts_ne_nil registry h
            · exact h

/-- C10 (amended): the pack-size list that reaches the solvers is never empty,
since the registry starts as the five default sizes, `SetPackSizes` leaves the
registry as it was when the supplied list is empty, and no request served by
either handler leaves it empty; on the empty list itself
`getOptimalPackDistribution` returns nothing at all, neither NoSolution nor an
empty or garbage distribution: it panics on indexing the smallest pack
size. -/
theorem empty_list_never_reaches_solver (registry : List Int)
    (h : RegistryReachable registry) (quantity : Int) :
    registry ≠ [] ∧
    (∀ r : SizesRequest, r.body = some [] → (SetPackSizes registry r).2 = registry) ∧
    (∀ r : SizesRequest, (SetPackSizes registry r).2 ≠ []) ∧
    (∀ r : CalcRequest, (CalculatePacks registry r).2 ≠ []) ∧
    getOptimalPackDistribution quantity [] = none := by
  have hne : registry ≠ [] := by
    induction h with
    | start => decide
    | update reg r _ ih => exact setPackSizes_keeps_nonempty reg r ih
    | calculate reg r _ ih => exact calculatePacks_keeps_nonempty reg r ih
  refine ⟨hne, ?_, fun r => setPackSizes_keeps_nonempty registry r hne,
    fun r => calculatePacks_keeps_nonempty registry r hne, rfl⟩
  intro r hb
  unfold SetPackSizes
  rw [hb]
  simp only [List.length_nil, if_true]
  split
  · rfl
  · split
    · rfl
    · split
      · rfl
      · split
        · rfl
        · split <;> rfl

/-- Witness of `empty_list_never_reaches_solver`: the registry left by the
update of the default registry with the sizes 3, 5. -/
theorem empty_list_never_reaches_solver_witness :
    (SetPackSizes defaultPackSizes
      ⟨"POST", "application/json", AllowedOrigin, "Bearer " ++ AuthToken, some [3, 5]⟩).2
      = [5, 3] ∧
    ((SetPackSizes defaultPackSizes
      ⟨"POST", "application/json", AllowedOrigin, "Bearer " ++ AuthToken, some [3, 5]⟩).2
      ≠ [] ∧
    (∀ r : SizesRequest, r.body = some [] →
      (SetPackSizes (SetPackSizes defaultPackSizes
        ⟨"POST", "application/json", AllowedOrigin, "Bearer " ++ AuthToken, some [3, 5]⟩).2
        r).2
      = (SetPackSizes defaultPackSizes
        ⟨"POST", "application/json", AllowedOrigin, "Bearer " ++ AuthToken, some [3, 5]⟩).2) ∧
    (∀ r : SizesRequest,
      (SetPackSizes (SetPackSizes defaultPackSizes
        ⟨"POST", "application/json", AllowedOrigin, "Bearer " ++ AuthToken, some [3, 5]⟩).2
        r).2 ≠ []) ∧
    (∀ r : CalcRequest,
      (CalculatePacks (SetPackSizes defaultPackSizes
        ⟨"POST", "application/json", AllowedOrigin, "Bearer " ++ AuthToken, some [3, 5]⟩).2
        r).2 ≠ []) ∧
    getOptimalPackDistribution 1 [] = none) :=
  ⟨by decide,
    empty_list_never_reaches_solver _
      (RegistryReachable.update defaultPackSizes
        ⟨"POST", "application/json", AllowedOrigin, "Bearer " ++ AuthToken, some [3, 5]⟩
        RegistryReachable.start) 1⟩

/-- C10 as stated fails: with quantity 1 and the empty pack-size list
`getOptimalPackDistribution` does not report NoSolution (the nil distribution
with the `MaxInt32` count): it panics on `packs[0]`. -/
theorem empty_list_never_reaches_solver_counterexample :
    getOptimalPackDistribution 1 [] = none ∧
    getOptimalPackDistribution 1 [] ≠ some (none, MaxInt32) := by
  decide

end SortMyPackages
